import Mathlib

/-
Verification of the domcontext atomization and chunk-packing engine.

Shallow embedding of:
  src/domcontext/_internal/chunker/chunk.py                (Chunk container)
  src/domcontext/_internal/chunker/chunker.py              (chunk_semantic_ir,
    _is_continuation, _build_scope_line, _calculate_overlap_start)
  src/domcontext/_internal/chunker/atomic_serializers.py   (ElementSerializer,
    ElementNoAttrsSerializer, TextSerializer)
  src/domcontext/_internal/chunker/semantic_ir_serializer.py (SemanticIRSerializer)
  src/domcontext/_internal/chunker/types.py                (Atom)
  src/domcontext/_internal/ir/semantic_ir.py               (tree + dfs walk)

The tokenizer is an arbitrary function from strings to naturals, matching the
Tokenizer contract count_tokens : str -> non-negative int (pure, deterministic).

The imperative while loops of chunk_semantic_ir are rendered as recursive
functions: the inner atom loop recurses structurally on the remaining suffix of
the atom list, and the outer per-chunk loop recurses on an explicit fuel
argument (fuel = number of atoms suffices; this is proved, not assumed, in the
termination theorem below).  Besides the fields that mirror the Python locals
(chunk, atoms_in_chunk, cursor index), the embedding also records, for each
emitted scope line, which atoms it was built from and which is_continuation /
has_more flags were passed to _build_scope_line; these ghost records are only
logs of calls the Python code makes and never influence the computation.
-/

namespace DomContext

/-- Mirrors types.py Atom: one attribute pair or one word, with the
pre-formatted opening and closing variants and owner metadata. -/
structure Atom where
  content : String
  chunk_context : String
  line_start_first : String
  line_start_cont : String
  line_end_complete : String
  line_end_cont : String
  node_id : Nat
  is_first_in_node : Bool
  is_last_in_node : Bool
deriving Repr, DecidableEq

/-- Default atom used only for List.getD style access on indices that are
proved in range. -/
def dAtom : Atom := ⟨"", "", "", "", "", "", 0, false, false⟩

/-- Mirrors chunk.py Chunk: append-only list of text pieces with a running
token total. -/
structure Chunk where
  text_pieces : List String
  total_tokens : Nat
deriving Repr, DecidableEq

/-- Chunk() -/
def Chunk.empty : Chunk := ⟨[], 0⟩

/-- Chunk.add_text -/
def Chunk.add_text (c : Chunk) (text : String) (tokens : Nat) : Chunk :=
  ⟨c.text_pieces ++ [text], c.total_tokens + tokens⟩

/-- Chunk.get_tokens -/
def Chunk.get_tokens (c : Chunk) : Nat := c.total_tokens

/-- Chunk.to_markdown: plain concatenation, separators are baked into pieces. -/
def Chunk.to_markdown (c : Chunk) : String := String.join c.text_pieces

/-- Mirrors chunker.py _build_scope_line.  The first branch is the Python test
`atoms[0].content == "" and not atoms[0].line_end_complete` (falsy = empty
string); the content join is `" ".join(a.content for a in atoms if a.content)`. -/
def buildScopeLine (atoms : List Atom) (is_cont has_more : Bool) : String :=
  match atoms with
  | [] => ""
  | a0 :: _ =>
    if a0.content = "" ∧ a0.line_end_complete = "" then
      (if is_cont then a0.line_start_cont else a0.line_start_first) ++ "\n"
    else
      (if is_cont then a0.line_start_cont else a0.line_start_first)
        ++ String.intercalate " " ((atoms.map Atom.content).filter (fun s => s ≠ ""))
        ++ (if has_more then (atoms.getLastD dAtom).line_end_cont
            else (atoms.getLastD dAtom).line_end_complete)
        ++ "\n"

/-- Mirrors chunker.py _is_continuation (Python None == None is true, matched
by Option equality). -/
def isContinuation (prev : Option Nat) (cur : Option Nat) (atoms : List Atom) : Bool :=
  prev == cur && !atoms.isEmpty && !(atoms.headD dAtom).is_first_in_node

/-- Ghost record of one _build_scope_line call that produced a chunk piece:
the atoms of the scope line, the is_continuation flag, the has_more flag. -/
abbrev LineRec : Type := List Atom × Bool × Bool

/-- Default line record for getD access. -/
def dRec : LineRec := ([], false, false)

/-- Renders a line record exactly as chunker.py rendered the piece. -/
def lineRender (r : LineRec) : String := buildScopeLine r.1 r.2.1 r.2.2

/-- State of the inner atom loop of chunk_semantic_ir on exit: the chunk being
built, atoms_in_chunk, current_scope_atoms, current_scope_node_id, the ghost
line records, and the cursor i. -/
structure InnerSt where
  chunk : Chunk
  aic : List Atom
  scope : List Atom
  scopeId : Option Nat
  recs : List LineRec
  i : Nat
deriving Repr, DecidableEq

/-- Result of one iteration of the inner loop body: break out of the loop with
a final state, or continue with updated chunk / atoms_in_chunk / scope state
(the cursor advance i := i + 1 is applied by the loop itself). -/
inductive StepRes where
  | brk : InnerSt → StepRes
  | go : Chunk → List Atom → List Atom → Option Nat → List LineRec → StepRes
deriving Repr, DecidableEq

/-- Lines 76-89 and 119-126 of chunker.py: start a new scope from a node-first
atom (the previous scope, if any, was already flushed by the caller), test the
worst-case rendering against the budget, backtrack-break on overflow, otherwise
consume the atom and flush the scope at once if this atom closes its node. -/
def startScope (tok : String → Nat) (size : Nat) (prev : Option Nat) (a : Atom)
    (i : Nat) (chunk : Chunk) (aic : List Atom) (recs : List LineRec) : StepRes :=
  if chunk.text_pieces ≠ [] ∧
      size < chunk.get_tokens + tok (buildScopeLine [a] false (!a.is_last_in_node)) then
    .brk ⟨chunk, aic, [], some a.node_id, recs, i⟩
  else if a.is_last_in_node then
    .go (chunk.add_text (buildScopeLine [a] (isContinuation prev (some a.node_id) [a]) false)
          (tok (buildScopeLine [a] (isContinuation prev (some a.node_id) [a]) false)))
      (aic ++ [a]) [] (some a.node_id)
      (recs ++ [([a], isContinuation prev (some a.node_id) [a], false)])
  else
    .go chunk aic [a] (some a.node_id) recs

/-- Line 93-94 of chunker.py: the current_scope_node_id after meeting a
non-first atom (set to its owner only when the scope was empty). -/
def scopeIdUpd (scope : List Atom) (sid : Option Nat) (a : Atom) : Option Nat :=
  if scope.isEmpty then some a.node_id else sid

/-- Lines 91-116 and 119-126 of chunker.py: extend the current scope with a
non-first atom; on overflow with a nonempty scope, close the scope with the
continuation terminator and break; otherwise consume the atom and flush the
scope at once if this atom closes its node. -/
def extendScope (tok : String → Nat) (size : Nat) (prev : Option Nat) (a : Atom)
    (i : Nat) (chunk : Chunk) (aic scope : List Atom) (sid : Option Nat)
    (recs : List LineRec) : StepRes :=
  if size < chunk.get_tokens + tok (buildScopeLine (scope ++ [a])
        (isContinuation prev (scopeIdUpd scope sid a) (scope ++ [a])) (!a.is_last_in_node))
      ∧ scope ≠ [] then
    .brk ⟨chunk.add_text
        (buildScopeLine scope (isContinuation prev (scopeIdUpd scope sid a) (scope ++ [a])) true)
        (tok (buildScopeLine scope (isContinuation prev (scopeIdUpd scope sid a) (scope ++ [a])) true)),
      aic ++ scope, [], scopeIdUpd scope sid a,
      recs ++ [(scope, isContinuation prev (scopeIdUpd scope sid a) (scope ++ [a]), true)], i⟩
  else if a.is_last_in_node then
    .go (chunk.add_text
        (buildScopeLine (scope ++ [a]) (isContinuation prev (scopeIdUpd scope sid a) (scope ++ [a])) false)
        (tok (buildScopeLine (scope ++ [a]) (isContinuation prev (scopeIdUpd scope sid a) (scope ++ [a])) false)))
      (aic ++ (scope ++ [a])) [] (scopeIdUpd scope sid a)
      (recs ++ [(scope ++ [a], isContinuation prev (scopeIdUpd scope sid a) (scope ++ [a]), false)])
  else
    .go chunk aic (scope ++ [a]) (scopeIdUpd scope sid a) recs

/-- One iteration of the inner while body (lines 62-126 of chunker.py) on the
atom a = all_atoms[i].  For a node-first atom, lines 66-74 first try to flush a
pending previous scope: on overflow with a nonempty chunk the loop breaks
before flushing; otherwise the flush (a complete line with both flags false)
is applied and the new scope is started. -/
def innerStep (tok : String → Nat) (size : Nat) (prev : Option Nat) (a : Atom)
    (i : Nat) (chunk : Chunk) (aic scope : List Atom) (sid : Option Nat)
    (recs : List LineRec) : StepRes :=
  if a.is_first_in_node then
    if scope ≠ [] ∧ chunk.text_pieces ≠ [] ∧
        size < chunk.get_tokens + tok (buildScopeLine scope false false) then
      .brk ⟨chunk, aic, scope, sid, recs, i⟩
    else
      startScope tok size prev a i
        (if scope = [] then chunk
         else chunk.add_text (buildScopeLine scope false false)
           (tok (buildScopeLine scope false false)))
        (aic ++ scope)
        (if scope = [] then recs else recs ++ [(scope, false, false)])
  else
    extendScope tok size prev a i chunk aic scope sid recs

/-- The inner while loop of chunk_semantic_ir (lines 62-126): iterates over the
remaining atom suffix, keeping the cursor i in step with it. -/
def innerLoop (tok : String → Nat) (size : Nat) (prev : Option Nat) :
    List Atom → Nat → Chunk → List Atom → List Atom → Option Nat → List LineRec → InnerSt
  | [], i, chunk, aic, scope, sid, recs => ⟨chunk, aic, scope, sid, recs, i⟩
  | a :: rest, i, chunk, aic, scope, sid, recs =>
    match innerStep tok size prev a i chunk aic scope sid recs with
    | .brk st => st
    | .go c2 a2 s2 sid2 r2 => innerLoop tok size prev rest (i + 1) c2 a2 s2 sid2 r2

/-- Result of building one chunk (lines 48-152 of chunker.py): the chunk, its
atoms_in_chunk, the ghost line records, the breadcrumb pieces prepended before
any scope line, and the cursor after the body. -/
structure BodyRes where
  chunk : Chunk
  aic : List Atom
  recs : List LineRec
  ctxPieces : List String
  i : Nat
deriving Repr, DecidableEq

/-- Lines 52-55 of chunker.py: the chunk starts from the breadcrumb of the
atom at the cursor when this is not the first chunk, the option is enabled and
the breadcrumb is nonempty (truthy); otherwise from the empty chunk. -/
def ctxChunk (tok : String → Nat) (includePath notFirst : Bool) (ctx : String) : Chunk :=
  if notFirst = true ∧ includePath = true ∧ ctx ≠ "" then
    Chunk.empty.add_text ctx (tok ctx)
  else Chunk.empty

/-- The breadcrumb pieces the chunk was seeded with. -/
def ctxPiecesOf (includePath notFirst : Bool) (ctx : String) : List String :=
  if notFirst = true ∧ includePath = true ∧ ctx ≠ "" then [ctx] else []

/-- Lines 129-144 of chunker.py: handle an incomplete scope left by the inner
loop: force add it when the chunk has no pieces, add it if it fits the budget,
otherwise backtrack the cursor by the scope length. -/
def bodyEpilogue (tok : String → Nat) (size : Nat) (prev : Option Nat)
    (ctxPieces : List String) (r : InnerSt) : BodyRes :=
  if r.scope ≠ [] then
    if r.chunk.text_pieces = [] ∨
        r.chunk.get_tokens
          + tok (buildScopeLine r.scope (isContinuation prev r.scopeId r.scope) true) ≤ size then
      ⟨r.chunk.add_text
          (buildScopeLine r.scope (isContinuation prev r.scopeId r.scope) true)
          (tok (buildScopeLine r.scope (isContinuation prev r.scopeId r.scope) true)),
        r.aic ++ r.scope,
        r.recs ++ [(r.scope, isContinuation prev r.scopeId r.scope, true)], ctxPieces, r.i⟩
    else
      ⟨r.chunk, r.aic, r.recs, ctxPieces, r.i - r.scope.length⟩
  else
    ⟨r.chunk, r.aic, r.recs, ctxPieces, r.i⟩

/-- Lines 146-152 of chunker.py: if no content atom was added (only the
breadcrumb), force add the atom at the cursor regardless of budget. -/
def bodySafety (tok : String → Nat) (atoms : List Atom) (e : BodyRes) : BodyRes :=
  if e.aic = [] ∧ e.i < atoms.length then
    ⟨e.chunk.add_text
        (buildScopeLine [atoms.getD e.i dAtom] false (!(atoms.getD e.i dAtom).is_last_in_node))
        (tok (buildScopeLine [atoms.getD e.i dAtom] false (!(atoms.getD e.i dAtom).is_last_in_node))),
      [atoms.getD e.i dAtom],
      e.recs ++ [([atoms.getD e.i dAtom], false, !(atoms.getD e.i dAtom).is_last_in_node)],
      e.ctxPieces, e.i + 1⟩
  else e

/-- One outer iteration of chunk_semantic_ir without the overlap step: the
optional breadcrumb (lines 52-55), the inner loop (62-126), the
incomplete-scope epilogue (129-144) and the zero-atom safety force-add
(146-152). -/
def chunkBody (tok : String → Nat) (size : Nat) (includePath notFirst : Bool)
    (atoms : List Atom) (prev : Option Nat) (start : Nat) : BodyRes :=
  bodySafety tok atoms
    (bodyEpilogue tok size prev
      (ctxPiecesOf includePath notFirst (atoms.getD start dAtom).chunk_context)
      (innerLoop tok size prev (atoms.drop start) start
        (ctxChunk tok includePath notFirst (atoms.getD start dAtom).chunk_context)
        [] [] none []))

/-- The backward scan of _calculate_overlap_start (lines 263-272): walk the
given (already reversed) trailing atoms, accumulating content token costs, and
count how many fit within the overlap budget, stopping at the first overflow. -/
def overlapScan (tok : String → Nat) (overlapTokens : Nat) : List Atom → Nat → Nat
  | [], _ => 0
  | a :: rest, acc =>
    if overlapTokens < acc + tok a.content then 0
    else overlapScan tok overlapTokens rest (acc + tok a.content) + 1

/-- Mirrors chunker.py _calculate_overlap_start. -/
def calculateOverlapStart (tok : String → Nat) (atoms : List Atom)
    (chunk_start chunk_end overlapTokens : Nat) : Nat :=
  if chunk_end ≤ chunk_start then chunk_end
  else
    let seg := ((atoms.drop chunk_start).take (chunk_end - chunk_start)).reverse
    max (chunk_end - overlapScan tok overlapTokens seg 0) chunk_start

/-- One produced chunk together with the bookkeeping the Python locals carry:
atoms_in_chunk, the ghost line records, the breadcrumb pieces, the chunk_start
index, and the prev_chunk_last_node_id value in force while the chunk was
built. -/
structure PackedChunk where
  chunk : Chunk
  aic : List Atom
  recs : List LineRec
  ctxPieces : List String
  start : Nat
  prevOwner : Option Nat
deriving Repr, DecidableEq

/-- Default packed chunk for getD access. -/
def dPC : PackedChunk := ⟨Chunk.empty, [], [], [], 0, none⟩

/-- The outer while loop of chunk_semantic_ir (lines 47-171): builds one chunk,
updates prev_chunk_last_node_id from the last atom placed (lines 154-156), then
applies the overlap backtracking (lines 160-170).  The loop recurses on an
explicit fuel; fuel = number of atoms is enough, which is proved below (the
cursor strictly advances with every chunk). -/
def packLoop (tok : String → Nat) (size overlapTokens : Nat) (includePath : Bool)
    (atoms : List Atom) : Nat → Nat → Option Nat → Bool → List PackedChunk
  | 0, _, _, _ => []
  | fuel + 1, i, prev, notFirst =>
    if i < atoms.length then
      let b := chunkBody tok size includePath notFirst atoms prev i
      let prev1 := match b.aic.getLast? with
        | some a => some a.node_id
        | none => prev
      (⟨b.chunk, b.aic, b.recs, b.ctxPieces, i, prev⟩ : PackedChunk) ::
        (if b.i < atoms.length then
          let os := calculateOverlapStart tok atoms i b.i overlapTokens
          if i < os then
            packLoop tok size overlapTokens includePath atoms fuel os
              (if 0 < os then some ((atoms.getD (os - 1) dAtom).node_id) else prev1) true
          else
            packLoop tok size overlapTokens includePath atoms fuel b.i prev1 true
        else
          packLoop tok size overlapTokens includePath atoms fuel b.i prev1 true)
    else []

/-- chunk_semantic_ir on an already serialized atom list, keeping the
per-chunk bookkeeping. -/
def packFull (tok : String → Nat) (size overlapTokens : Nat) (includePath : Bool)
    (atoms : List Atom) : List PackedChunk :=
  packLoop tok size overlapTokens includePath atoms atoms.length 0 none false

/-- Node payload of the semantic tree: SemanticElement (tag, readable_id,
ordered semantic_attributes) or SemanticText; unknown stands for any payload
that is neither, carrying the name of its Python type. -/
inductive NodeData where
  | element : String → Option String → List (String × String) → NodeData
  | text : String → NodeData
  | unknown : String → NodeData
deriving Repr, DecidableEq

/-- SemanticTreeNode: payload plus ordered children. -/
inductive STree where
  | node : NodeData → List STree → STree

/-- Python str.split(): split on whitespace runs, dropping empty pieces. -/
def pySplit (s : String) : List String :=
  (s.split Char.isWhitespace).filter (fun w => w ≠ "")

/-- Python "  " * depth. -/
def indentOf (depth : Nat) : String := String.join (List.replicate depth "  ")

/-- The breadcrumb block built by SemanticIRSerializer from the ancestor path
(one bullet line per ancestor at its index-based indentation); empty path gives
the empty string. -/
def ctxOf (path : List String) : String :=
  String.join (path.enum.map (fun p => indentOf p.1 ++ "- " ++ p.2 ++ "\n"))

/-- Python `element.readable_id if element.readable_id else element.tag`
(empty readable_id is falsy). -/
def baseIdOf (tag : String) (rid : Option String) : String :=
  match rid with
  | some r => if r = "" then tag else r
  | none => tag

/-- The display id a node contributes to the dfs path: elements only, and only
when the id is truthy (semantic_ir.py dfs, `new_path = path + [node_id] if
node_id else path`). -/
def pathIdOf (d : NodeData) : Option String :=
  match d with
  | .element tag rid _ => if baseIdOf tag rid = "" then none else some (baseIdOf tag rid)
  | _ => none

/-- One attribute atom of ElementSerializer. -/
def attrAtom (indent base ctx : String) (n : Nat) (kv : String × String)
    (f l : Bool) : Atom :=
  ⟨kv.1 ++ "=\"" ++ kv.2 ++ "\"", ctx,
    indent ++ "- " ++ base ++ " (", indent ++ "- " ++ base ++ " (... ",
    ")", " ...)", n, f, l⟩

/-- One word atom of TextSerializer (also its empty-text atom, with w = ""). -/
def wordAtom (w : String) (indent ctx : String) (n : Nat) (f l : Bool) : Atom :=
  ⟨w, ctx, indent ++ "- \"", indent ++ "- \"... ", "\"", " ...\"", n, f, l⟩

/-- The single atom of ElementNoAttrsSerializer. -/
def bareAtom (indent base ctx : String) (n : Nat) : Atom :=
  ⟨"", ctx, indent ++ "- " ++ base, indent ++ "- " ++ base, "", "", n, true, true⟩

/-- Applies a flagged constructor along a list the way the serializers
enumerate: is_first on index 0, is_last on the final index. -/
def flagRun {α : Type} (mk : α → Bool → Bool → Atom) : Bool → List α → List Atom
  | _, [] => []
  | f, [x] => [mk x f true]
  | f, x :: y :: rest => mk x f false :: flagRun mk false (y :: rest)

/-- The atoms one recognized node yields (atomic_serializers.py): attribute
atoms, a single bare atom, word atoms, or a single empty-text atom. -/
def dataAtoms (d : NodeData) (indent ctx : String) (n : Nat) : List Atom :=
  match d with
  | .element tag rid attrs =>
    if attrs = [] then [bareAtom indent (baseIdOf tag rid) ctx n]
    else flagRun (attrAtom indent (baseIdOf tag rid) ctx n) true attrs
  | .text s =>
    match pySplit s with
    | [] => [wordAtom "" indent ctx n true true]
    | w :: ws => flagRun (fun w2 => wordAtom w2 indent ctx n) true (w :: ws)
  | .unknown _ => []

/-- SemanticIRSerializer._create_serializer: recognized shapes produce their
atoms, anything else raises ValueError naming the unknown type. -/
def atomizeData (d : NodeData) (indent ctx : String) (n : Nat) :
    Except String (List Atom) :=
  match d with
  | .unknown ty => .error ("Unknown node type: " ++ ty)
  | _ => .ok (dataAtoms d indent ctx n)

mutual

/-- DFS pre-order walk of SemanticIRSerializer over one subtree: assigns the
current counter value as the node id, atomizes the node, then walks the
children with the extended path; returns the per-node atom runs in visit order
and the next counter value. -/
def irRunsT (t : STree) (depth : Nat) (path : List String) (c : Nat) :
    Except String (List (List Atom) × Nat) :=
  match t with
  | .node d cs =>
    match atomizeData d (indentOf depth) (ctxOf path) c with
    | .error e => .error e
    | .ok run =>
      match irRunsF cs (depth + 1)
          (match pathIdOf d with | some s => path ++ [s] | none => path) (c + 1) with
      | .error e => .error e
      | .ok p => .ok (run :: p.1, p.2)

/-- DFS walk over a forest of siblings, threading the node counter. -/
def irRunsF (ts : List STree) (depth : Nat) (path : List String) (c : Nat) :
    Except String (List (List Atom) × Nat) :=
  match ts with
  | [] => .ok ([], c)
  | t :: rest =>
    match irRunsT t depth path c with
    | .error e => .error e
    | .ok p =>
      match irRunsF rest depth path p.2 with
      | .error e => .error e
      | .ok q => .ok (p.1 ++ q.1, q.2)

end

/-- list(SemanticIRSerializer(ir)): the flat atom stream, or the ValueError of
the first unrecognized node. -/
def atomStream (t : STree) : Except String (List Atom) :=
  match irRunsT t 0 [] 0 with
  | .error e => .error e
  | .ok p => .ok p.1.flatten

/-- The per-node atom runs of the stream, in DFS pre-order ([] on error). -/
def runsOfD (t : STree) : List (List Atom) :=
  match irRunsT t 0 [] 0 with
  | .error _ => []
  | .ok p => p.1

/-- chunk_semantic_ir end to end: serialize (propagating the atomizer error),
return [] on an empty stream, otherwise pack.  Python defaults: size = 500,
overlap = 50, include_parent_path = true. -/
def chunkSemanticIR (tok : String → Nat) (t : STree) (size overlapTokens : Nat)
    (includePath : Bool) : Except String (List Chunk) :=
  match atomStream t with
  | .error e => .error e
  | .ok atoms =>
    .ok (if atoms.isEmpty then []
         else (packFull tok size overlapTokens includePath atoms).map PackedChunk.chunk)

mutual

/-- A tree is well formed when every node payload has a recognized shape. -/
def wfTree : STree → Bool
  | .node d cs =>
    (match d with | .unknown _ => false | _ => true) && wfForest cs

/-- Well-formedness of a forest. -/
def wfForest : List STree → Bool
  | [] => true
  | t :: ts => wfTree t && wfForest ts

end

mutual

/-- The Python type name of the first unrecognized node in DFS pre-order. -/
def firstUnknownT : STree → Option String
  | .node d cs =>
    match d with
    | .unknown ty => some ty
    | _ => firstUnknownF cs

/-- First unrecognized node in a forest. -/
def firstUnknownF : List STree → Option String
  | [] => none
  | t :: ts =>
    match firstUnknownT t with
    | some x => some x
    | none => firstUnknownF ts

end

/-- Local well-formedness of two adjacent stream atoms: a node-first atom
follows exactly a node-last atom, node ids are constant inside a run and
strictly increase across runs. -/
def AdjOK (a b : Atom) : Prop :=
  b.is_first_in_node = a.is_last_in_node ∧
  (if a.is_last_in_node = true then a.node_id < b.node_id else b.node_id = a.node_id)

/-- What the code guarantees about one emitted scope line in a well-formed
stream: nonempty, one owner, the is_continuation flag is exactly the
_is_continuation test on the prev owner and the first atom, and the has_more
flag marks exactly the lines whose last atom does not close its node. -/
def RunOK (prev : Option Nat) (r : LineRec) : Prop :=
  r.1 ≠ [] ∧
  (∀ a ∈ r.1, a.node_id = (r.1.headD dAtom).node_id) ∧
  r.2.1 = ((prev == some ((r.1.headD dAtom).node_id)) && !(r.1.headD dAtom).is_first_in_node) ∧
  r.2.2 = !((r.1.getLastD dAtom).is_last_in_node)

/-- The running token total of a chunk is the tokenizer sum of its pieces. -/
def ChunkTokOK (tok : String → Nat) (c : Chunk) : Prop :=
  c.total_tokens = (c.text_pieces.map tok).sum

/-- Accumulating pass of mergeByOwner: cur is the run being grown. -/
def mergeAux (cur : List Atom) : List (List Atom) → List (List Atom)
  | [] => [cur]
  | r :: rest =>
    if (r.headD dAtom).node_id = (cur.headD dAtom).node_id then
      mergeAux (cur ++ r) rest
    else
      cur :: mergeAux r rest

/-- Re-joins the split pieces of each scope line: merges maximal groups of
adjacent runs owned by the same node into one run each (the inverse of
splitting a node across chunk or line boundaries). -/
def mergeByOwner : List (List Atom) → List (List Atom)
  | [] => []
  | r :: rest => mergeAux r rest

/-- Renders a list of runs as unsplit lines: first opener, complete closer. -/
def renderAll (runs : List (List Atom)) : String :=
  String.join (runs.map (fun r => buildScopeLine r false false))

/-- Character-count tokenizer (the MockTokenizer of the unit tests). -/
def tokLen : String → Nat := String.length

/-- Constant-one tokenizer: measures every string as one token. -/
def tokOne : String → Nat := fun _ => 1

/-- Tokenizer counting occurrences of the letter x. -/
def tokX : String → Nat := fun s => (s.data.filter (fun c => c = 'x')).length

/-- Example: element a with one attribute and two bare children. -/
def exTree1 : STree :=
  .node (.element "a" none [("k", "v")])
    [.node (.element "b" none []) [], .node (.element "c" none []) []]

/-- Example: bare element x with a text child whose middle word has no x. -/
def exTree2 : STree :=
  .node (.element "x" none []) [.node (.text "xx y xx") []]

/-- Example: bare element d with a three-word text child and two bare element
children. -/
def exTree3 : STree :=
  .node (.element "d" none [])
    [.node (.text "u v w") [], .node (.element "q" none []) [],
     .node (.element "z" none []) []]

/-- Example: a bare element with one bare child. -/
def exTree4 : STree :=
  .node (.element "a" none []) [.node (.element "b" none []) []]

/-- Example: element with two attributes and a two-word text child (every atom
has nonempty content). -/
def exTree5 : STree :=
  .node (.element "a" none [("k", "v"), ("m", "n")]) [.node (.text "hi yo") []]

/-- Example of a malformed tree: the second child payload has an unrecognized
type. -/
def exTreeBad : STree :=
  .node (.element "a" none [])
    [.node (.element "b" none []) [], .node (.unknown "Widget") []]

/-- Bookkeeping contract of one inner-loop iteration relative to the state
(chunk, aic, scope, recs, i) it started from and the atom a it processed: on
break, the recorded lines grew by a block whose rendered texts were appended to
the chunk and whose atoms were appended to atoms_in_chunk, the combined
consumed atoms (atoms_in_chunk plus pending scope) and the cursor are
unchanged; on continue, the same, except the consumed atoms grew by exactly a. -/
def StepOK (tok : String → Nat) (chunk : Chunk) (aic scope : List Atom)
    (a : Atom) (recs : List LineRec) (i : Nat) : StepRes → Prop
  | .brk st => ∃ D, st.recs = recs ++ D ∧
      st.chunk.text_pieces = chunk.text_pieces ++ D.map lineRender ∧
      st.aic = aic ++ (D.map (fun r => r.1)).flatten ∧
      st.aic ++ st.scope = aic ++ scope ∧
      st.i = i ∧
      (ChunkTokOK tok chunk → ChunkTokOK tok st.chunk)
  | .go c2 a2 s2 _ r2 => ∃ D, r2 = recs ++ D ∧
      c2.text_pieces = chunk.text_pieces ++ D.map lineRender ∧
      a2 = aic ++ (D.map (fun r => r.1)).flatten ∧
      a2 ++ s2 = (aic ++ scope) ++ [a] ∧
      (ChunkTokOK tok chunk → ChunkTokOK tok c2)

/-- Unconditional bookkeeping facts about one produced chunk: its pieces are
the breadcrumb pieces followed by exactly the rendered recorded lines, its
atoms_in_chunk are exactly the atoms of the recorded lines in order and form a
contiguous slice of the stream starting at the chunk start index, the chunk is
never atom-empty, its token total is the tokenizer sum of its pieces, and the
breadcrumb pieces are empty or the single breadcrumb of the start atom. -/
def PcOK (tok : String → Nat) (atoms : List Atom) (pc : PackedChunk) : Prop :=
  pc.chunk.text_pieces = pc.ctxPieces ++ pc.recs.map lineRender ∧
  pc.aic = (pc.recs.map (fun r => r.1)).flatten ∧
  pc.aic = (atoms.drop pc.start).take pc.aic.length ∧
  pc.aic ≠ [] ∧
  pc.start + pc.aic.length ≤ atoms.length ∧
  ChunkTokOK tok pc.chunk ∧
  (pc.ctxPieces = [] ∨ pc.ctxPieces = [(atoms.getD pc.start dAtom).chunk_context])

/-- Where the next chunk starts once a chunk closed at exclusive index
start + |aic| with atoms remaining: the overlap start when it moved strictly
past the chunk start, otherwise exactly the close index (lines 160-170). -/
def nextStartOf (tok : String → Nat) (overlapTokens : Nat) (atoms : List Atom)
    (p : PackedChunk) : Nat :=
  if p.start < calculateOverlapStart tok atoms p.start (p.start + p.aic.length) overlapTokens then
    calculateOverlapStart tok atoms p.start (p.start + p.aic.length) overlapTokens
  else p.start + p.aic.length

/-- Relation between two consecutive produced chunks: the later chunk starts
strictly after the earlier one, exactly at nextStartOf, and its
prev_chunk_last_node_id value is the owner of the atom immediately preceding
its start. -/
def PackRel (tok : String → Nat) (overlapTokens : Nat) (atoms : List Atom)
    (p q : PackedChunk) : Prop :=
  p.start < q.start ∧
  q.start = nextStartOf tok overlapTokens atoms p ∧
  q.prevOwner = some ((atoms.getD (q.start - 1) dAtom).node_id)

/-- Shape of the atom run of one node with id n: nonempty, every atom owned by
n, is_first_in_node exactly on index 0 and is_last_in_node exactly on the final
index. -/
def RunShape (r : List Atom) (n : Nat) : Prop :=
  r ≠ [] ∧ (∀ a ∈ r, a.node_id = n) ∧
  (∀ k, k < r.length →
    ((r.getD k dAtom).is_first_in_node = decide (k = 0)) ∧
    ((r.getD k dAtom).is_last_in_node = decide (k = r.length - 1)))

/-- The atom stream of a tree, with [] standing for the error case. -/
def streamOf (t : STree) : List Atom :=
  match atomStream t with
  | .ok l => l
  | .error _ => []

/-- A decomposition of a stream into nonempty single-owner runs in which
adjacent runs have distinct owners (the runs are maximal). -/
def RunsDecomp (RL : List (List Atom)) : Prop :=
  (∀ r ∈ RL, r ≠ [] ∧ ∀ a ∈ r, a.node_id = (r.headD dAtom).node_id) ∧
  List.Chain' (fun r s => (r.headD dAtom).node_id ≠ (s.headD dAtom).node_id) RL

/-- The exclusive end index of a packed chunk in the atom stream. -/
def pcEnd (pc : PackedChunk) : Nat := pc.start + pc.aic.length

/-- How many trailing atoms of a closed chunk fit within the overlap budget:
the backward scan of _calculate_overlap_start on the chunk's own slice. -/
def overlapCount (tok : String → Nat) (ov : Nat) (atoms : List Atom)
    (pc : PackedChunk) : Nat :=
  overlapScan tok ov (((atoms.drop pc.start).take (pcEnd pc - pc.start)).reverse) 0

/-- The next start as the spec words it (claim C7): end − count when that
index lies strictly before end and strictly after the chunk's own start,
otherwise exactly end. -/
def specNextStart (tok : String → Nat) (ov : Nat) (atoms : List Atom)
    (pc : PackedChunk) : Nat :=
  if pcEnd pc - overlapCount tok ov atoms pc < pcEnd pc ∧
      pc.start < pcEnd pc - overlapCount tok ov atoms pc then
    pcEnd pc - overlapCount tok ov atoms pc
  else pcEnd pc

/-- Example: element with three attributes (the first with content cost under
tokX, the others costless) and one bare child. -/
def exTree7 : STree :=
  .node (.element "xx" none [("x", "x"), ("a", "b"), ("c", "d")])
    [.node (.element "xx" none []) []]

/-- Example: element with three attributes and two bare children. -/
def exTree7b : STree :=
  .node (.element "xx" none [("x", "x"), ("a", "b"), ("c", "d")])
    [.node (.element "xx" none []) [], .node (.element "xx" none []) []]

/-- Example: element with two attributes and one single-attribute child; every
atom content has positive length. -/
def exTree8 : STree :=
  .node (.element "a" none [("k", "v"), ("m", "n")])
    [.node (.element "b" none [("p", "q")]) []]

/-- Example of a malformed tree whose root payload is already unrecognized. -/
def exTreeBad2 : STree := .node (.unknown "Widget") []

/-- The chunks of exTree7b under tokX with size 6 and overlap 0. -/
def packEx7b : List PackedChunk := packFull tokX 6 0 true (streamOf exTree7b)

/-- The empty chunk satisfies the token bookkeeping invariant. -/
theorem chunkTokOK_empty (tok : String → Nat) : ChunkTokOK tok Chunk.empty := by
  simp [ChunkTokOK, Chunk.empty]

/-- add_text with the token count of the added text preserves the invariant. -/
theorem chunkTokOK_add (tok : String → Nat) (c : Chunk) (s : String)
    (h : ChunkTokOK tok c) : ChunkTokOK tok (c.add_text s (tok s)) := by
  simp only [ChunkTokOK, Chunk.add_text, List.map_append, List.sum_append,
    List.map_cons, List.map_nil, List.sum_cons, List.sum_nil] at *
  omega

/-- startScope satisfies the step contract with empty pending scope. -/
theorem startScope_spec (tok : String → Nat) (size : Nat) (prev : Option Nat)
    (a : Atom) (i : Nat) (chunk : Chunk) (aic : List Atom) (recs : List LineRec) :
    StepOK tok chunk aic [] a recs i (startScope tok size prev a i chunk aic recs) := by
  unfold startScope
  split
  · exact ⟨[], by simp⟩
  · split
    · refine ⟨[([a], isContinuation prev (some a.node_id) [a], false)], ?_⟩
      simp [lineRender, Chunk.add_text]
      exact fun h2 => chunkTokOK_add tok chunk _ h2
    · exact ⟨[], by simp⟩

/-- extendScope satisfies the step contract. -/
theorem extendScope_spec (tok : String → Nat) (size : Nat) (prev : Option Nat)
    (a : Atom) (i : Nat) (chunk : Chunk) (aic scope : List Atom)
    (sid : Option Nat) (recs : List LineRec) :
    StepOK tok chunk aic scope a recs i
      (extendScope tok size prev a i chunk aic scope sid recs) := by
  unfold extendScope
  split
  · refine ⟨[(scope, isContinuation prev (scopeIdUpd scope sid a) (scope ++ [a]), true)], ?_⟩
    simp [lineRender, Chunk.add_text]
    exact fun h2 => chunkTokOK_add tok chunk _ h2
  · split
    · refine ⟨[(scope ++ [a], isContinuation prev (scopeIdUpd scope sid a)
        (scope ++ [a]), false)], ?_⟩
      simp [lineRender, Chunk.add_text]
      exact fun h2 => chunkTokOK_add tok chunk _ h2
    · exact ⟨[], by simp⟩

/-- Prepending the flush of the previous scope (a complete line added to the
chunk, the scope atoms moved to atoms_in_chunk) preserves the step contract,
now relative to the state before the flush. -/
theorem stepOK_flush (tok : String → Nat) (chunk : Chunk) (aic scope : List Atom)
    (a : Atom) (recs : List LineRec) (i : Nat) (res : StepRes)
    (h : StepOK tok
      (chunk.add_text (buildScopeLine scope false false) (tok (buildScopeLine scope false false)))
      (aic ++ scope) [] a (recs ++ [(scope, false, false)]) i res) :
    StepOK tok chunk aic scope a recs i res := by
  cases res with
  | brk st =>
    obtain ⟨D, h1, h2, h3, h4, h5, h6⟩ := h
    refine ⟨(scope, false, false) :: D, ?_, ?_, ?_, ?_, h5,
      fun hc => h6 (chunkTokOK_add tok chunk _ hc)⟩
    · simpa [List.append_assoc] using h1
    · simpa [Chunk.add_text, lineRender, List.append_assoc] using h2
    · simpa [List.append_assoc] using h3
    · simpa using h4
  | go c2 a2 s2 sid2 r2 =>
    obtain ⟨D, h1, h2, h3, h4, h5⟩ := h
    refine ⟨(scope, false, false) :: D, ?_, ?_, ?_, ?_,
      fun hc => h5 (chunkTokOK_add tok chunk _ hc)⟩
    · simpa [List.append_assoc] using h1
    · simpa [Chunk.add_text, lineRender, List.append_assoc] using h2
    · simpa [List.append_assoc] using h3
    · simpa using h4

/-- Every inner-loop iteration satisfies the step contract. -/
theorem innerStep_spec (tok : String → Nat) (size : Nat) (prev : Option Nat)
    (a : Atom) (i : Nat) (chunk : Chunk) (aic scope : List Atom)
    (sid : Option Nat) (recs : List LineRec) :
    StepOK tok chunk aic scope a recs i
      (innerStep tok size prev a i chunk aic scope sid recs) := by
  unfold innerStep
  split
  · split
    · exact ⟨[], by simp⟩
    · by_cases hsc : scope = []
      · subst hsc
        simpa using startScope_spec tok size prev a i chunk aic recs
      · simp only [hsc, if_neg, ite_false]
        exact stepOK_flush tok chunk aic scope a recs i _
          (startScope_spec tok size prev a i _ (aic ++ scope) (recs ++ [(scope, false, false)]))
  · exact extendScope_spec tok size prev a i chunk aic scope sid recs

/-- Bookkeeping invariant of the inner loop: the recorded lines grew by a block
D, the chunk pieces grew by exactly the rendered lines of D, atoms_in_chunk
grew by exactly the atoms of D in order, the consumed atoms are the initial
ones plus the consumed prefix of the remaining suffix, the cursor only
advances, never past the suffix, and the token total stays the tokenizer sum
of the pieces. -/
theorem innerLoop_spec (tok : String → Nat) (size : Nat) (prev : Option Nat) :
    ∀ (rest : List Atom) (i : Nat) (chunk : Chunk) (aic scope : List Atom)
      (sid : Option Nat) (recs : List LineRec),
    ∃ D,
      (innerLoop tok size prev rest i chunk aic scope sid recs).recs = recs ++ D ∧
      (innerLoop tok size prev rest i chunk aic scope sid recs).chunk.text_pieces
        = chunk.text_pieces ++ D.map lineRender ∧
      (innerLoop tok size prev rest i chunk aic scope sid recs).aic
        = aic ++ (D.map (fun r => r.1)).flatten ∧
      (innerLoop tok size prev rest i chunk aic scope sid recs).aic
          ++ (innerLoop tok size prev rest i chunk aic scope sid recs).scope
        = (aic ++ scope) ++ rest.take
            ((innerLoop tok size prev rest i chunk aic scope sid recs).i - i) ∧
      i ≤ (innerLoop tok size prev rest i chunk aic scope sid recs).i ∧
      (innerLoop tok size prev rest i chunk aic scope sid recs).i - i ≤ rest.length ∧
      (ChunkTokOK tok chunk →
        ChunkTokOK tok (innerLoop tok size prev rest i chunk aic scope sid recs).chunk) := by
  intro rest
  induction rest with
  | nil =>
    intro i chunk aic scope sid recs
    exact ⟨[], by simp [innerLoop]⟩
  | cons a rest2 ih =>
    intro i chunk aic scope sid recs
    have hstep := innerStep_spec tok size prev a i chunk aic scope sid recs
    cases hs : innerStep tok size prev a i chunk aic scope sid recs with
    | brk st =>
      have hl : innerLoop tok size prev (a :: rest2) i chunk aic scope sid recs = st := by
        rw [innerLoop, hs]
      rw [hl]
      rw [hs] at hstep
      obtain ⟨D, h1, h2, h3, h4, h5, h6⟩ := hstep
      exact ⟨D, h1, h2, h3, by simpa [h5] using h4, by omega, by simp [h5], h6⟩
    | go c2 a2 s2 sid2 r2 =>
      have hl : innerLoop tok size prev (a :: rest2) i chunk aic scope sid recs
          = innerLoop tok size prev rest2 (i + 1) c2 a2 s2 sid2 r2 := by
        rw [innerLoop, hs]
      rw [hl]
      rw [hs] at hstep
      obtain ⟨D1, g1, g2, g3, g4, g5⟩ := hstep
      obtain ⟨D2, h1, h2, h3, h4, h5, h6, h7⟩ := ih (i + 1) c2 a2 s2 sid2 r2
      refine ⟨D1 ++ D2, ?_, ?_, ?_, ?_, by omega, by simp; omega, fun hc => h7 (g5 hc)⟩
      · rw [h1, g1, List.append_assoc]
      · rw [h2, g2, List.map_append, List.append_assoc]
      · rw [h3, g3, List.map_append, List.flatten_append, List.append_assoc]
      · rw [h4, g4]
        have he : (innerLoop tok size prev rest2 (i + 1) c2 a2 s2 sid2 r2).i - i
            = ((innerLoop tok size prev rest2 (i + 1) c2 a2 s2 sid2 r2).i - (i + 1)) + 1 := by
          omega
        rw [he, List.take_succ_cons]
        simp [List.append_assoc]

theorem take_one_drop (atoms : List Atom) (s : Nat) (h : s < atoms.length) :
    (atoms.drop s).take 1 = [atoms.getD s dAtom] := by
  have hne : atoms.drop s ≠ [] := by
    simp [List.drop_eq_nil_iff]
    omega
  cases hd : atoms.drop s with
  | nil => exact absurd hd hne
  | cons x xs =>
    have h0 : (atoms.drop s)[0]? = atoms[s]? := by
      rw [List.getElem?_drop]
      norm_num
    rw [hd] at h0
    simp at h0
    simp [List.getD_eq_getElem?_getD, ← h0]

theorem getD_slice (atoms : List Atom) (s n k : Nat) (hk : k < n) :
    ((atoms.drop s).take n).getD k dAtom = atoms.getD (s + k) dAtom := by
  simp [List.getD_eq_getElem?_getD, List.getElem?_take, hk, List.getElem?_drop]

theorem getLastD_slice (atoms : List Atom) (s n : Nat) (hn : 0 < n)
    (hle : s + n ≤ atoms.length) :
    ((atoms.drop s).take n).getLastD dAtom = atoms.getD (s + n - 1) dAtom := by
  have hlen : ((atoms.drop s).take n).length = n := by
    simp [List.length_take, List.length_drop]
    omega
  have h1 : ((atoms.drop s).take n).getLastD dAtom
      = ((atoms.drop s).take n).getD (n - 1) dAtom := by
    rw [List.getLastD_eq_getLast?, List.getLast?_eq_getElem?, hlen,
      List.getD_eq_getElem?_getD]
  rw [h1, getD_slice atoms s n (n - 1) (by omega)]
  congr 1
  omega

theorem ctxChunk_pieces (tok : String → Nat) (ip nf : Bool) (ctx : String) :
    (ctxChunk tok ip nf ctx).text_pieces = ctxPiecesOf ip nf ctx := by
  unfold ctxChunk ctxPiecesOf
  split <;> simp [Chunk.empty, Chunk.add_text]

theorem ctxChunk_tokOK (tok : String → Nat) (ip nf : Bool) (ctx : String) :
    ChunkTokOK tok (ctxChunk tok ip nf ctx) := by
  unfold ctxChunk
  split
  · exact chunkTokOK_add tok Chunk.empty ctx (chunkTokOK_empty tok)
  · exact chunkTokOK_empty tok

theorem ctxPiecesOf_cases (ip nf : Bool) (ctx : String) :
    ctxPiecesOf ip nf ctx = [] ∨ ctxPiecesOf ip nf ctx = [ctx] := by
  unfold ctxPiecesOf
  split
  · exact Or.inr rfl
  · exact Or.inl rfl

theorem chunkBody_spec (tok : String → Nat) (size : Nat) (includePath notFirst : Bool)
    (atoms : List Atom) (prev : Option Nat) (start : Nat) :
    (chunkBody tok size includePath notFirst atoms prev start).chunk.text_pieces
      = (chunkBody tok size includePath notFirst atoms prev start).ctxPieces
        ++ (chunkBody tok size includePath notFirst atoms prev start).recs.map lineRender ∧
    (chunkBody tok size includePath notFirst atoms prev start).aic
      = ((chunkBody tok size includePath notFirst atoms prev start).recs.map (fun r => r.1)).flatten ∧
    (chunkBody tok size includePath notFirst atoms prev start).aic
      = (atoms.drop start).take (chunkBody tok size includePath notFirst atoms prev start).aic.length ∧
    (chunkBody tok size includePath notFirst atoms prev start).i
      = start + (chunkBody tok size includePath notFirst atoms prev start).aic.length ∧
    (start ≤ atoms.length → (chunkBody tok size includePath notFirst atoms prev start).i ≤ atoms.length) ∧
    (start < atoms.length → (chunkBody tok size includePath notFirst atoms prev start).aic ≠ []) ∧
    ChunkTokOK tok (chunkBody tok size includePath notFirst atoms prev start).chunk ∧
    ((chunkBody tok size includePath notFirst atoms prev start).ctxPieces = [] ∨
      (chunkBody tok size includePath notFirst atoms prev start).ctxPieces
        = [(atoms.getD start dAtom).chunk_context]) := by
  unfold chunkBody
  obtain ⟨D, h1, h2, h3, h4, h5, h6, h7⟩ := innerLoop_spec tok size prev (atoms.drop start)
    start (ctxChunk tok includePath notFirst (atoms.getD start dAtom).chunk_context) [] [] none []
  set r := innerLoop tok size prev (atoms.drop start) start
    (ctxChunk tok includePath notFirst (atoms.getD start dAtom).chunk_context) [] [] none []
    with hr
  simp only [List.nil_append, List.append_nil] at h1 h2 h3 h4
  have hctx := ctxChunk_pieces tok includePath notFirst (atoms.getD start dAtom).chunk_context
  have hctxTok := ctxChunk_tokOK tok includePath notFirst (atoms.getD start dAtom).chunk_context
  have hctxCases := ctxPiecesOf_cases includePath notFirst (atoms.getD start dAtom).chunk_context
  rw [hctx] at h2
  have hdl : (atoms.drop start).length = atoms.length - start := by
    simp [List.length_drop]
  have hlen : r.aic.length + r.scope.length = r.i - start := by
    have hc := congrArg List.length h4
    simp only [List.length_append, List.length_take] at hc
    rw [hdl] at hc
    omega
  unfold bodyEpilogue bodySafety
  rw [hdl] at h6
  split
  · rename_i hsc
    split
    · rename_i hfit
      split
      · rename_i hsafe
        simp only at hsafe
        exact absurd hsafe.1 (by simp [hsc])
      · rename_i hsafe
        refine ⟨?_, ?_, ?_, ?_, ?_, ?_, ?_, ?_⟩
        · simp only [Chunk.add_text, h2, h1, List.map_append, List.map_cons, List.map_nil,
            List.append_assoc, lineRender]
        · simp only [List.map_append, List.map_cons, List.map_nil, List.flatten_append,
            List.flatten_cons, List.flatten_nil, List.append_nil, h1]
          rw [← h3]
        · simp only [List.length_append]
          rw [show r.aic.length + r.scope.length = r.i - start from hlen]
          exact h4
        · simp only [List.length_append]
          omega
        · intro hsn
          simp only
          omega
        · intro hlt
          simp [hsc]
        · exact chunkTokOK_add tok r.chunk _ (h7 hctxTok)
        · exact hctxCases
    · rename_i hfit
      split
      · rename_i hsafe
        simp only at hsafe
        obtain ⟨haicnil, hilt⟩ := hsafe
        have hstart : r.i - r.scope.length = start := by
          rw [haicnil] at hlen
          simp at hlen
          omega
        rw [hstart] at hilt
        refine ⟨?_, ?_, ?_, ?_, ?_, ?_, ?_, ?_⟩
        · simp only [hstart, Chunk.add_text, h2, h1, List.map_append, List.map_cons,
            List.map_nil, List.append_assoc, lineRender]
        · simp only [hstart, List.map_append, List.map_cons, List.map_nil,
            List.flatten_append, List.flatten_cons, List.flatten_nil, List.append_nil, h1]
          rw [← h3, haicnil]
          simp
        · simp only [hstart, List.length_cons, List.length_nil]
          exact (take_one_drop atoms start hilt).symm
        · simp only [hstart, List.length_cons, List.length_nil]
        · intro hsn
          simp only [hstart]
          omega
        · intro hlt
          simp
        · exact chunkTokOK_add tok _ _ (h7 hctxTok)
        · exact hctxCases
      · rename_i hsafe
        simp only at hsafe
        push_neg at hsafe
        refine ⟨?_, ?_, ?_, ?_, ?_, ?_, ?_, ?_⟩
        · simp only [h2, h1]
        · simp only [h3, h1]
        · show r.aic = (atoms.drop start).take r.aic.length
          conv_lhs => rw [← List.take_left r.aic r.scope, h4]
          rw [List.take_take]
          congr 1
          omega
        · show r.i - r.scope.length = start + r.aic.length
          omega
        · intro hsn
          show r.i - r.scope.length ≤ atoms.length
          omega
        · intro hlt hemp
          simp only at hemp
          have hle2 := hsafe hemp
          have h0 : r.i - r.scope.length = start := by
            rw [hemp] at hlen
            simp at hlen
            omega
          omega
        · exact h7 hctxTok
        · exact hctxCases
  · rename_i hsc
    push_neg at hsc
    rw [hsc, List.append_nil] at h4
    have hlen2 : r.aic.length = r.i - start := by
      rw [hsc] at hlen
      simpa using hlen
    split
    · rename_i hsafe
      simp only at hsafe
      obtain ⟨haicnil, hilt⟩ := hsafe
      have hstart : r.i = start := by
        rw [haicnil] at hlen2
        simp at hlen2
        omega
      rw [hstart] at hilt
      refine ⟨?_, ?_, ?_, ?_, ?_, ?_, ?_, ?_⟩
      · simp only [hstart, Chunk.add_text, h2, h1, List.map_append, List.map_cons,
          List.map_nil, List.append_assoc, lineRender]
      · simp only [hstart, List.map_append, List.map_cons, List.map_nil,
          List.flatten_append, List.flatten_cons, List.flatten_nil, List.append_nil, h1]
        rw [← h3, haicnil]
        simp
      · simp only [hstart, List.length_cons, List.length_nil]
        exact (take_one_drop atoms start hilt).symm
      · simp only [hstart, List.length_cons, List.length_nil]
      · intro hsn
        simp only [hstart]
        omega
      · intro hlt
        simp
      · exact chunkTokOK_add tok _ _ (h7 hctxTok)
      · exact hctxCases
    · rename_i hsafe
      simp only at hsafe
      push_neg at hsafe
      refine ⟨?_, ?_, ?_, ?_, ?_, ?_, ?_, ?_⟩
      · simp only [h2, h1]
      · simp only [h3, h1]
      · show r.aic = (atoms.drop start).take r.aic.length
        rw [← hlen2] at h4
        exact h4
      · show r.i = start + r.aic.length
        omega
      · intro hsn
        show r.i ≤ atoms.length
        omega
      · intro hlt hemp
        simp only at hemp
        have hle2 := hsafe hemp
        have h0 : r.i = start := by
          rw [hemp] at hlen2
          simp at hlen2
          omega
        omega
      · exact h7 hctxTok
      · exact hctxCases

theorem packLoop_nil (tok : String → Nat) (size overlapTokens : Nat) (includePath : Bool)
    (atoms : List Atom) (fuel i : Nat) (prev : Option Nat) (nf : Bool)
    (h : atoms.length ≤ i) :
    packLoop tok size overlapTokens includePath atoms fuel i prev nf = [] := by
  cases fuel with
  | zero => rfl
  | succ f =>
    rw [packLoop]
    rw [if_neg (by omega)]

theorem getLast_match_nodeId (l : List Atom) (prev : Option Nat) (h : l ≠ []) :
    (match l.getLast? with
      | some a => some a.node_id
      | none => prev) = some ((l.getLastD dAtom).node_id) := by
  cases hl : l.getLast? with
  | none => exact absurd (List.getLast?_eq_none_iff.mp hl) h
  | some a =>
    simp [List.getLastD_eq_getLast?, hl]

theorem packLoop_cons (tok : String → Nat) (size overlapTokens : Nat) (includePath : Bool)
    (atoms : List Atom) (fuel i : Nat) (prev : Option Nat) (nf : Bool)
    (hi : i < atoms.length) :
    packLoop tok size overlapTokens includePath atoms (fuel + 1) i prev nf
      = ⟨(chunkBody tok size includePath nf atoms prev i).chunk,
          (chunkBody tok size includePath nf atoms prev i).aic,
          (chunkBody tok size includePath nf atoms prev i).recs,
          (chunkBody tok size includePath nf atoms prev i).ctxPieces, i, prev⟩
        :: (if (chunkBody tok size includePath nf atoms prev i).i < atoms.length then
             (if i < calculateOverlapStart tok atoms i
                  (chunkBody tok size includePath nf atoms prev i).i overlapTokens then
               packLoop tok size overlapTokens includePath atoms fuel
                 (calculateOverlapStart tok atoms i
                   (chunkBody tok size includePath nf atoms prev i).i overlapTokens)
                 (if 0 < calculateOverlapStart tok atoms i
                      (chunkBody tok size includePath nf atoms prev i).i overlapTokens then
                   some ((atoms.getD (calculateOverlapStart tok atoms i
                     (chunkBody tok size includePath nf atoms prev i).i overlapTokens - 1)
                       dAtom).node_id)
                  else
                   (match (chunkBody tok size includePath nf atoms prev i).aic.getLast? with
                     | some a => some a.node_id
                     | none => prev)) true
              else
               packLoop tok size overlapTokens includePath atoms fuel
                 (chunkBody tok size includePath nf atoms prev i).i
                 (match (chunkBody tok size includePath nf atoms prev i).aic.getLast? with
                   | some a => some a.node_id
                   | none => prev) true)
            else
             packLoop tok size overlapTokens includePath atoms fuel
               (chunkBody tok size includePath nf atoms prev i).i
               (match (chunkBody tok size includePath nf atoms prev i).aic.getLast? with
                 | some a => some a.node_id
                 | none => prev) true) := by
  rw [packLoop]
  rw [if_pos hi]

theorem mem_head?_eq_headD (q : PackedChunk) (l : List PackedChunk)
    (hq : q ∈ l.head?) : q = l.headD dPC ∧ l ≠ [] := by
  cases l with
  | nil => simp at hq
  | cons x xs =>
    simp at hq
    simp [hq]

theorem packLoop_spec (tok : String → Nat) (size overlapTokens : Nat) (includePath : Bool)
    (atoms : List Atom) :
    ∀ (fuel i : Nat) (prev : Option Nat) (nf : Bool),
      (∀ pc ∈ packLoop tok size overlapTokens includePath atoms fuel i prev nf,
        PcOK tok atoms pc) ∧
      List.Chain' (PackRel tok overlapTokens atoms)
        (packLoop tok size overlapTokens includePath atoms fuel i prev nf) ∧
      (packLoop tok size overlapTokens includePath atoms fuel i prev nf ≠ [] →
        ((packLoop tok size overlapTokens includePath atoms fuel i prev nf).headD dPC).start = i ∧
        ((packLoop tok size overlapTokens includePath atoms fuel i prev nf).headD dPC).prevOwner
          = prev) := by
  intro fuel
  induction fuel with
  | zero =>
    intro i prev nf
    refine ⟨by simp [packLoop], by simp [packLoop], by simp [packLoop]⟩
  | succ f ih =>
    intro i prev nf
    by_cases hi : i < atoms.length
    · rw [packLoop_cons tok size overlapTokens includePath atoms f i prev nf hi]
      obtain ⟨s1, s2, s3, s4, s5, s6, s7, s8⟩ :=
        chunkBody_spec tok size includePath nf atoms prev i
      set b := chunkBody tok size includePath nf atoms prev i with hb
      have haicne : b.aic ≠ [] := s6 hi
      have hile : b.i ≤ atoms.length := s5 (by omega)
      have hlenpos : b.aic.length ≠ 0 := by
        simpa [List.length_eq_zero] using haicne
      have hbigt : i < b.i := by omega
      have hpc : PcOK tok atoms
          (⟨b.chunk, b.aic, b.recs, b.ctxPieces, i, prev⟩ : PackedChunk) := by
        refine ⟨s1, s2, s3, haicne, by simp; omega, s7, s8⟩
      have hlast : (match b.aic.getLast? with
          | some a => some a.node_id
          | none => prev) = some ((atoms.getD (b.i - 1) dAtom).node_id) := by
        rw [getLast_match_nodeId b.aic prev haicne]
        congr 2
        rw [s3]
        rw [getLastD_slice atoms i b.aic.length (by omega) (by omega)]
        congr 1
        omega
      split
      · rename_i hbi
        split
        · rename_i hos
          obtain ⟨ih1, ih2, ih3⟩ := ih (calculateOverlapStart tok atoms i b.i overlapTokens)
            (if 0 < calculateOverlapStart tok atoms i b.i overlapTokens then
              some ((atoms.getD (calculateOverlapStart tok atoms i b.i overlapTokens - 1)
                dAtom).node_id)
             else
              (match b.aic.getLast? with
                | some a => some a.node_id
                | none => prev)) true
          refine ⟨?_, ?_, fun _ => ⟨rfl, rfl⟩⟩
          · intro pc hpcmem
            rcases List.mem_cons.mp hpcmem with hh | hh
            · exact hh ▸ hpc
            · exact ih1 pc hh
          · rw [List.chain'_cons']
            refine ⟨?_, ih2⟩
            intro q hq
            obtain ⟨hqe, hne⟩ := mem_head?_eq_headD q _ hq
            subst hqe
            obtain ⟨hh1, hh2⟩ := ih3 hne
            refine ⟨?_, ?_, ?_⟩
            · rw [hh1]
              exact hos
            · rw [hh1]
              unfold nextStartOf
              simp only
              rw [← s4]
              rw [if_pos hos]
            · rw [hh2, hh1]
              rw [if_pos (by omega)]
        · rename_i hos
          obtain ⟨ih1, ih2, ih3⟩ := ih b.i
            (match b.aic.getLast? with
              | some a => some a.node_id
              | none => prev) true
          refine ⟨?_, ?_, fun _ => ⟨rfl, rfl⟩⟩
          · intro pc hpcmem
            rcases List.mem_cons.mp hpcmem with hh | hh
            · exact hh ▸ hpc
            · exact ih1 pc hh
          · rw [List.chain'_cons']
            refine ⟨?_, ih2⟩
            intro q hq
            obtain ⟨hqe, hne⟩ := mem_head?_eq_headD q _ hq
            subst hqe
            obtain ⟨hh1, hh2⟩ := ih3 hne
            refine ⟨?_, ?_, ?_⟩
            · rw [hh1]
              exact hbigt
            · rw [hh1]
              unfold nextStartOf
              simp only
              rw [← s4]
              rw [if_neg hos]
            · rw [hh2, hh1]
              exact hlast
      · rename_i hbi
        rw [packLoop_nil tok size overlapTokens includePath atoms f b.i _ true (by omega)]
        refine ⟨?_, by simp, fun _ => ⟨rfl, rfl⟩⟩
        intro pc hpcmem
        simp at hpcmem
        exact hpcmem ▸ hpc
    · rw [packLoop_nil tok size overlapTokens includePath atoms (f + 1) i prev nf (by omega)]
      exact ⟨by simp, by simp, by simp⟩

theorem chunkBody_advance (tok : String → Nat) (size : Nat) (includePath nf : Bool)
    (atoms : List Atom) (prev : Option Nat) (i : Nat) (hi : i < atoms.length) :
    i < (chunkBody tok size includePath nf atoms prev i).i ∧
      (chunkBody tok size includePath nf atoms prev i).i ≤ atoms.length := by
  obtain ⟨_, _, _, s4, s5, s6, _, _⟩ := chunkBody_spec tok size includePath nf atoms prev i
  have haicne := s6 hi
  have : (chunkBody tok size includePath nf atoms prev i).aic.length ≠ 0 := by
    simpa [List.length_eq_zero] using haicne
  exact ⟨by omega, s5 (by omega)⟩

theorem overlapStart_le (tok : String → Nat) (atoms : List Atom)
    (cs ce ov : Nat) : calculateOverlapStart tok atoms cs ce ov ≤ ce := by
  unfold calculateOverlapStart
  split
  · omega
  · simp only [max_le_iff]
    omega

theorem packLoop_fuel_any (tok : String → Nat) (size overlapTokens : Nat)
    (includePath : Bool) (atoms : List Atom) :
    ∀ (f g i : Nat) (prev : Option Nat) (nf : Bool),
      atoms.length - i ≤ f → atoms.length - i ≤ g →
      packLoop tok size overlapTokens includePath atoms f i prev nf
        = packLoop tok size overlapTokens includePath atoms g i prev nf := by
  intro f
  induction f with
  | zero =>
    intro g i prev nf hf hg
    rw [packLoop_nil tok size overlapTokens includePath atoms 0 i prev nf (by omega),
      packLoop_nil tok size overlapTokens includePath atoms g i prev nf (by omega)]
  | succ f2 ih =>
    intro g i prev nf hf hg
    by_cases hi : i < atoms.length
    · cases g with
      | zero => omega
      | succ g2 =>
        rw [packLoop_cons tok size overlapTokens includePath atoms f2 i prev nf hi,
          packLoop_cons tok size overlapTokens includePath atoms g2 i prev nf hi]
        obtain ⟨hadv, hle⟩ := chunkBody_advance tok size includePath nf atoms prev i hi
        congr 1
        split
        · rename_i hbi
          split
          · rename_i hos
            have hosle : calculateOverlapStart tok atoms i
                (chunkBody tok size includePath nf atoms prev i).i overlapTokens
                ≤ (chunkBody tok size includePath nf atoms prev i).i :=
              overlapStart_le tok atoms i _ overlapTokens
            exact ih g2 _ _ true (by omega) (by omega)
          · exact ih g2 _ _ true (by omega) (by omega)
        · exact ih g2 _ _ true (by omega) (by omega)
    · rw [packLoop_nil tok size overlapTokens includePath atoms (f2 + 1) i prev nf (by omega),
        packLoop_nil tok size overlapTokens includePath atoms g i prev nf (by omega)]

theorem packLoop_length (tok : String → Nat) (size overlapTokens : Nat)
    (includePath : Bool) (atoms : List Atom) :
    ∀ (fuel i : Nat) (prev : Option Nat) (nf : Bool),
      (packLoop tok size overlapTokens includePath atoms fuel i prev nf).length
        ≤ atoms.length - i := by
  intro fuel
  induction fuel with
  | zero =>
    intro i prev nf
    simp [packLoop]
  | succ f2 ih =>
    intro i prev nf
    by_cases hi : i < atoms.length
    · rw [packLoop_cons tok size overlapTokens includePath atoms f2 i prev nf hi]
      obtain ⟨hadv, hle⟩ := chunkBody_advance tok size includePath nf atoms prev i hi
      simp only [List.length_cons]
      split
      · rename_i hbi
        split
        · rename_i hos
          have := ih (calculateOverlapStart tok atoms i
              (chunkBody tok size includePath nf atoms prev i).i overlapTokens)
            (if 0 < calculateOverlapStart tok atoms i
                (chunkBody tok size includePath nf atoms prev i).i overlapTokens then
              some ((atoms.getD (calculateOverlapStart tok atoms i
                (chunkBody tok size includePath nf atoms prev i).i overlapTokens - 1)
                  dAtom).node_id)
             else
              (match (chunkBody tok size includePath nf atoms prev i).aic.getLast? with
                | some a => some a.node_id
                | none => prev)) true
          omega
        · have := ih (chunkBody tok size includePath nf atoms prev i).i
            (match (chunkBody tok size includePath nf atoms prev i).aic.getLast? with
              | some a => some a.node_id
              | none => prev) true
          omega
      · have := ih (chunkBody tok size includePath nf atoms prev i).i
          (match (chunkBody tok size includePath nf atoms prev i).aic.getLast? with
            | some a => some a.node_id
            | none => prev) true
        omega
    · rw [packLoop_nil tok size overlapTokens includePath atoms (f2 + 1) i prev nf (by omega)]
      simp

theorem getD_mem (l : List Atom) (k : Nat) (h : k < l.length) :
    l.getD k dAtom ∈ l := by
  rw [List.getD_eq_getElem l dAtom h]
  exact List.getElem_mem h

theorem calcOverlap_zero (tok : String → Nat) (atoms : List Atom) (i e : Nat)
    (hie : i < e) (hle : e ≤ atoms.length)
    (hpos : ∀ a ∈ atoms, 0 < tok a.content) :
    calculateOverlapStart tok atoms i e 0 = e := by
  unfold calculateOverlapStart
  rw [if_neg (by omega)]
  cases hseg : ((atoms.drop i).take (e - i)).reverse with
  | nil =>
    exfalso
    have hlen : ((atoms.drop i).take (e - i)).length = e - i := by
      simp [List.length_take, List.length_drop]
      omega
    have := congrArg List.length hseg
    simp [hlen] at this
    omega
  | cons a rest =>
    have ha : a = atoms.getD (e - 1) dAtom := by
      have h1 : ((atoms.drop i).take (e - i)).reverse.head? = some a := by
        rw [hseg]
        rfl
      rw [List.head?_reverse] at h1
      have h2 := getLastD_slice atoms i (e - i) (by omega) (by omega)
      rw [List.getLastD_eq_getLast?, h1] at h2
      simp at h2
      rw [h2, List.getD_eq_getElem?_getD]
      congr 2
      omega
    have hmem : a ∈ atoms := by
      rw [ha]
      exact getD_mem atoms (e - 1) (by omega)
    have hscan : overlapScan tok 0 (a :: rest) 0 = 0 := by
      unfold overlapScan
      rw [if_pos]
      have := hpos a hmem
      omega
    simp only [hscan]
    simp only [Nat.sub_zero]
    exact max_eq_left (by omega)

theorem packLoop_partition (tok : String → Nat) (size : Nat) (includePath : Bool)
    (atoms : List Atom) (hpos : ∀ a ∈ atoms, 0 < tok a.content) :
    ∀ (fuel i : Nat) (prev : Option Nat) (nf : Bool), atoms.length - i ≤ fuel →
      ((packLoop tok size 0 includePath atoms fuel i prev nf).map
        (fun pc => pc.aic)).flatten = atoms.drop i := by
  intro fuel
  induction fuel with
  | zero =>
    intro i prev nf hf
    rw [packLoop_nil tok size 0 includePath atoms 0 i prev nf (by omega)]
    simp [List.drop_eq_nil_iff]
    omega
  | succ f2 ih =>
    intro i prev nf hf
    by_cases hi : i < atoms.length
    · rw [packLoop_cons tok size 0 includePath atoms f2 i prev nf hi]
      obtain ⟨s1, s2, s3, s4, s5, s6, s7, s8⟩ :=
        chunkBody_spec tok size includePath nf atoms prev i
      set b := chunkBody tok size includePath nf atoms prev i with hb
      have haicne : b.aic ≠ [] := s6 hi
      have hile : b.i ≤ atoms.length := s5 (by omega)
      have hlenpos : b.aic.length ≠ 0 := by
        simpa [List.length_eq_zero] using haicne
      simp only [List.map_cons, List.flatten_cons]
      split
      · rename_i hbi
        rw [calcOverlap_zero tok atoms i b.i (by omega) (by omega) hpos]
        rw [if_pos (by omega : i < b.i)]
        rw [ih b.i _ true (by omega)]
        have hdd : atoms.drop b.i = (atoms.drop i).drop b.aic.length := by
          rw [List.drop_drop, s4]
        rw [hdd]
        conv_rhs => rw [← List.take_append_drop b.aic.length (atoms.drop i)]
        rw [← s3]
      · rename_i hbi
        rw [packLoop_nil tok size 0 includePath atoms f2 b.i _ true (by omega)]
        simp only [List.map_nil, List.flatten_nil, List.append_nil]
        rw [s3]
        have : b.aic.length = (atoms.drop i).length := by
          simp [List.length_drop]
          omega
        rw [this]
        exact List.take_length _
    · rw [packLoop_nil tok size 0 includePath atoms (f2 + 1) i prev nf (by omega)]
      simp [List.drop_eq_nil_iff]
      omega

theorem overlapScan_sum (tok : String → Nat) (ov : Nat) :
    ∀ (l : List Atom) (acc : Nat), acc ≤ ov →
      acc + ((l.take (overlapScan tok ov l acc)).map (fun a => tok a.content)).sum ≤ ov ∧
      overlapScan tok ov l acc ≤ l.length := by
  intro l
  induction l with
  | nil =>
    intro acc hacc
    simp [overlapScan]
    omega
  | cons a rest ih =>
    intro acc hacc
    rw [overlapScan]
    split
    · refine ⟨by simpa using hacc, by omega⟩
    · rename_i hnlt
      push_neg at hnlt
      obtain ⟨ih1, ih2⟩ := ih (acc + tok a.content) hnlt
      constructor
      · rw [List.take_succ_cons]
        simp only [List.map_cons, List.sum_cons]
        omega
      · simp
        omega

theorem seg_take_scan (atoms : List Atom) (s e c : Nat) (hse : s < e)
    (hle : e ≤ atoms.length) (hc : c ≤ e - s) :
    (atoms.drop (e - c)).take c
      = ((((atoms.drop s).take (e - s)).reverse).take c).reverse := by
  have hslicelen : ((atoms.drop s).take (e - s)).length = e - s := by
    simp [List.length_take, List.length_drop]
    omega
  have h1 : (((atoms.drop s).take (e - s)).reverse).take c
      = (((atoms.drop s).take (e - s)).drop (e - s - c)).reverse := by
    have h2 : (((atoms.drop s).take (e - s)).drop (e - s - c)).reverse
        = List.take (((atoms.drop s).take (e - s)).length - (e - s - c))
            ((atoms.drop s).take (e - s)).reverse := List.reverse_drop
    rw [hslicelen] at h2
    rw [show e - s - (e - s - c) = c from by omega] at h2
    exact h2.symm
  rw [h1, List.reverse_reverse]
  rw [List.drop_take]
  rw [List.drop_drop]
  congr 1
  · omega
  · congr 1
    omega

theorem packRel_window (tok : String → Nat) (ov : Nat) (atoms : List Atom)
    (p q : PackedChunk) (hrel : PackRel tok ov atoms p q) (hpok : PcOK tok atoms p) :
    q.start = p.start + p.aic.length ∨
    (q.start < p.start + p.aic.length ∧
      (((atoms.drop q.start).take (p.start + p.aic.length - q.start)).map
        (fun a => tok a.content)).sum ≤ ov) := by
  obtain ⟨hlt, hstart, hprev⟩ := hrel
  obtain ⟨_, _, _, haicne, hbound, _, _⟩ := hpok
  have hlenpos : p.aic.length ≠ 0 := by
    simpa [List.length_eq_zero] using haicne
  rw [nextStartOf] at hstart
  have hcalc : calculateOverlapStart tok atoms p.start (p.start + p.aic.length) ov
      = max (p.start + p.aic.length
          - overlapScan tok ov (((atoms.drop p.start).take
              (p.start + p.aic.length - p.start)).reverse) 0) p.start := by
    unfold calculateOverlapStart
    rw [if_neg (by omega)]
  rw [hcalc] at hstart
  obtain ⟨hsum, hclen⟩ := overlapScan_sum tok ov (((atoms.drop p.start).take
    (p.start + p.aic.length - p.start)).reverse) 0 (by omega)
  set c := overlapScan tok ov (((atoms.drop p.start).take
    (p.start + p.aic.length - p.start)).reverse) 0 with hc
  have hseglen : (((atoms.drop p.start).take
      (p.start + p.aic.length - p.start)).reverse).length = p.aic.length := by
    simp [List.length_take, List.length_drop]
    omega
  rw [hseglen] at hclen
  split at hstart
  · rename_i hos
    -- the overlap start moved strictly past the chunk start
    have hosform : p.start + p.aic.length - c > p.start := by
      by_contra hcon
      push_neg at hcon
      rw [max_eq_right hcon] at hos
      omega
    rw [max_eq_left (by omega)] at hstart
    by_cases hc0 : c = 0
    · left
      rw [hstart, hc0]
      omega
    · right
      constructor
      · omega
      · rw [hstart]
        rw [show p.start + p.aic.length - (p.start + p.aic.length - c) = c from by omega]
        rw [seg_take_scan atoms p.start (p.start + p.aic.length) c (by omega) hbound (by omega)]
        rw [List.map_reverse, List.sum_reverse]
        omega
  · left
    exact hstart

theorem flagRun_length {α : Type} (mk : α → Bool → Bool → Atom) :
    ∀ (f : Bool) (l : List α), (flagRun mk f l).length = l.length := by
  intro f l
  induction l generalizing f with
  | nil => rfl
  | cons x rest ih =>
    cases rest with
    | nil => rfl
    | cons y rest2 =>
      simp only [flagRun, List.length_cons]
      rw [ih false]
      simp

theorem flagRun_getD {α : Type} (mk : α → Bool → Bool → Atom) (n : Nat)
    (hfirst : ∀ x u v, (mk x u v).is_first_in_node = u)
    (hlast : ∀ x u v, (mk x u v).is_last_in_node = v)
    (hid : ∀ x u v, (mk x u v).node_id = n) :
    ∀ (f : Bool) (l : List α) (k : Nat), k < l.length →
      (((flagRun mk f l).getD k dAtom).is_first_in_node = (f && decide (k = 0))) ∧
      (((flagRun mk f l).getD k dAtom).is_last_in_node = decide (k = l.length - 1)) ∧
      (((flagRun mk f l).getD k dAtom).node_id = n) := by
  intro f l
  induction l generalizing f with
  | nil =>
    intro k hk
    simp at hk
  | cons x rest ih =>
    intro k hk
    cases rest with
    | nil =>
      simp at hk
      subst hk
      simp [flagRun, hfirst, hlast, hid]
    | cons y rest2 =>
      cases k with
      | zero =>
        simp [flagRun, hfirst, hlast, hid]
      | succ k2 =>
        have hk2 : k2 < (y :: rest2).length := by
          simp at hk
          simpa using hk
        obtain ⟨g1, g2, g3⟩ := ih false k2 hk2
        simp only [flagRun, List.getD_cons_succ]
        refine ⟨?_, ?_, g3⟩
        · rw [g1]
          simp
        · rw [g2]
          congr 1
          simp only [List.length_cons]
          have : rest2.length + 1 + 1 - 1 = rest2.length + 1 := by omega
          rw [this]
          have h2 : rest2.length + 1 - 1 = rest2.length := by omega
          rw [h2]
          apply propext
          constructor
          · intro hh
            omega
          · intro hh
            omega

theorem runShape_flagRun {α : Type} (mk : α → Bool → Bool → Atom) (n : Nat)
    (hfirst : ∀ x u v, (mk x u v).is_first_in_node = u)
    (hlast : ∀ x u v, (mk x u v).is_last_in_node = v)
    (hid : ∀ x u v, (mk x u v).node_id = n)
    (l : List α) (hne : l ≠ []) : RunShape (flagRun mk true l) n := by
  have hlen := flagRun_length mk true l
  refine ⟨?_, ?_, ?_⟩
  · intro hcon
    rw [hcon] at hlen
    simp at hlen
    exact hne (List.length_eq_zero.mp hlen.symm)
  · intro a ha
    obtain ⟨k, hk, hget⟩ := List.mem_iff_getElem.mp ha
    have hk2 : k < l.length := by rw [← hlen]; exact hk
    obtain ⟨_, _, g3⟩ := flagRun_getD mk n hfirst hlast hid true l k hk2
    rw [List.getD_eq_getElem _ dAtom hk] at g3
    rw [hget] at g3
    exact g3
  · intro k hk
    have hk2 : k < l.length := by rw [← hlen]; exact hk
    obtain ⟨g1, g2, _⟩ := flagRun_getD mk n hfirst hlast hid true l k hk2
    rw [hlen]
    exact ⟨by rw [g1]; simp, g2⟩

theorem runShape_single (a : Atom) (n : Nat) (h1 : a.is_first_in_node = true)
    (h2 : a.is_last_in_node = true) (h3 : a.node_id = n) : RunShape [a] n := by
  refine ⟨by simp, by simp [h3], ?_⟩
  intro k hk
  simp at hk
  subst hk
  simp [h1, h2]

theorem runShape_dataAtoms (d : NodeData) (indent ctx : String) (n : Nat)
    (h : ∀ ty, d ≠ .unknown ty) : RunShape (dataAtoms d indent ctx n) n := by
  cases d with
  | element tag rid attrs =>
    simp only [dataAtoms]
    by_cases hattrs : attrs = []
    · rw [if_pos hattrs]
      exact runShape_single _ n rfl rfl rfl
    · rw [if_neg hattrs]
      exact runShape_flagRun _ n (fun x u v => rfl) (fun x u v => rfl) (fun x u v => rfl)
        attrs hattrs
  | text s =>
    simp only [dataAtoms]
    cases hws : pySplit s with
    | nil => exact runShape_single _ n rfl rfl rfl
    | cons w ws =>
      exact runShape_flagRun _ n (fun x u v => rfl) (fun x u v => rfl) (fun x u v => rfl)
        (w :: ws) (by simp)
  | unknown ty => exact absurd rfl (h ty)

theorem atomizeData_ok (d : NodeData) (indent ctx : String) (n : Nat)
    (h : ∀ ty, d ≠ .unknown ty) :
    atomizeData d indent ctx n = .ok (dataAtoms d indent ctx n) := by
  cases d with
  | element tag rid attrs => rfl
  | text s => rfl
  | unknown ty => exact absurd rfl (h ty)

mutual

theorem irT_ok (t : STree) (depth : Nat) (path : List String) (c : Nat)
    (hwf : wfTree t = true) :
    ∃ runs c2, irRunsT t depth path c = .ok (runs, c2) ∧
      c2 = c + runs.length ∧ 0 < runs.length ∧
      ∀ j, j < runs.length → RunShape (runs.getD j []) (c + j) := by
  cases t with
  | node d cs =>
    have hdek : ∀ ty, d ≠ .unknown ty := by
      intro ty hcon
      subst hcon
      rw [wfTree] at hwf
      simp at hwf
    have hcs : wfForest cs = true := by
      rw [wfTree] at hwf
      · simp only [Bool.and_eq_true] at hwf
        exact hwf.2
      · exact fun ty h => hdek ty h
    obtain ⟨runs2, c2, hrec, hc2, hshapes⟩ :=
      irF_ok cs (depth + 1)
        (match pathIdOf d with | some s => path ++ [s] | none => path) (c + 1) hcs
    refine ⟨dataAtoms d (indentOf depth) (ctxOf path) c :: runs2, c2, ?_, ?_, ?_, ?_⟩
    · rw [irRunsT]
      rw [atomizeData_ok d (indentOf depth) (ctxOf path) c hdek]
      rw [hrec]
    · simp only [List.length_cons]
      omega
    · simp
    · intro j hj
      cases j with
      | zero =>
        simpa using runShape_dataAtoms d (indentOf depth) (ctxOf path) c hdek
      | succ j2 =>
        simp only [List.getD_cons_succ]
        have : c + (j2 + 1) = (c + 1) + j2 := by omega
        rw [this]
        exact hshapes j2 (by simpa using hj)

theorem irF_ok (ts : List STree) (depth : Nat) (path : List String) (c : Nat)
    (hwf : wfForest ts = true) :
    ∃ runs c2, irRunsF ts depth path c = .ok (runs, c2) ∧
      c2 = c + runs.length ∧
      ∀ j, j < runs.length → RunShape (runs.getD j []) (c + j) := by
  cases ts with
  | nil =>
    refine ⟨[], c, rfl, by simp, by simp⟩
  | cons t rest =>
    rw [wfForest] at hwf
    simp only [Bool.and_eq_true] at hwf
    obtain ⟨ht, hrest⟩ := hwf
    obtain ⟨runs1, c1, hrec1, hc1, hpos1, hsh1⟩ := irT_ok t depth path c ht
    obtain ⟨runs2, c2, hrec2, hc2, hsh2⟩ := irF_ok rest depth path c1 hrest
    refine ⟨runs1 ++ runs2, c2, ?_, ?_, ?_⟩
    · rw [irRunsF, hrec1]
      simp [hrec2]
    · simp only [List.length_append]
      omega
    · intro j hj
      by_cases hj1 : j < runs1.length
      · rw [List.getD_append _ _ _ _ hj1]
        exact hsh1 j hj1
      · push_neg at hj1
        rw [List.getD_append_right _ _ _ _ hj1]
        have : c + j = c1 + (j - runs1.length) := by omega
        rw [this]
        exact hsh2 (j - runs1.length) (by simp at hj; omega)

end

mutual

theorem fuT_none (t : STree) (h : firstUnknownT t = none) : wfTree t = true := by
  cases t with
  | node d cs =>
    cases d with
    | element tag rid attrs =>
      rw [firstUnknownT] at h
      · rw [wfTree]
        · simp [fuF_none cs h]
        · intro ty hcon
          cases hcon
      · intro ty hcon
        cases hcon
    | text s =>
      rw [firstUnknownT] at h
      · rw [wfTree]
        · simp [fuF_none cs h]
        · intro ty hcon
          cases hcon
      · intro ty hcon
        cases hcon
    | unknown ty =>
      rw [firstUnknownT] at h
      cases h

theorem fuF_none (ts : List STree) (h : firstUnknownF ts = none) : wfForest ts = true := by
  cases ts with
  | nil => rfl
  | cons t rest =>
    rw [firstUnknownF] at h
    rw [wfForest]
    simp only [Bool.and_eq_true]
    cases ht : firstUnknownT t with
    | some x =>
      rw [ht] at h
      cases h
    | none =>
      rw [ht] at h
      exact ⟨fuT_none t ht, fuF_none rest h⟩

end

mutual

theorem irT_err (t : STree) (depth : Nat) (path : List String) (c : Nat) (ty : String)
    (h : firstUnknownT t = some ty) :
    irRunsT t depth path c = .error ("Unknown node type: " ++ ty) := by
  cases t with
  | node d cs =>
    cases d with
    | element tag rid attrs =>
      rw [firstUnknownT] at h
      · rw [irRunsT]
        rw [atomizeData_ok _ _ _ _ (by intro ty2 hcon; cases hcon)]
        rw [irF_err cs (depth + 1) _ (c + 1) ty h]
      · intro ty2 hcon
        cases hcon
    | text s =>
      rw [firstUnknownT] at h
      · rw [irRunsT]
        rw [atomizeData_ok _ _ _ _ (by intro ty2 hcon; cases hcon)]
        rw [irF_err cs (depth + 1) _ (c + 1) ty h]
      · intro ty2 hcon
        cases hcon
    | unknown ty2 =>
      rw [firstUnknownT] at h
      cases h
      rw [irRunsT]
      rfl

theorem irF_err (ts : List STree) (depth : Nat) (path : List String) (c : Nat) (ty : String)
    (h : firstUnknownF ts = some ty) :
    irRunsF ts depth path c = .error ("Unknown node type: " ++ ty) := by
  cases ts with
  | nil =>
    rw [firstUnknownF] at h
    cases h
  | cons t rest =>
    rw [firstUnknownF] at h
    rw [irRunsF]
    cases ht : firstUnknownT t with
    | some x =>
      rw [ht] at h
      cases h
      rw [irT_err t depth path c ty ht]
    | none =>
      rw [ht] at h
      obtain ⟨runs1, c1, hrec1, hc1, hpos1, hsh1⟩ :=
        irT_ok t depth path c (fuT_none t ht)
      rw [hrec1]
      simp [irF_err rest depth path c1 ty h]

end

theorem runShape_chain (r : List Atom) (n : Nat) (h : RunShape r n) :
    List.Chain' AdjOK r := by
  obtain ⟨hne, hids, hflags⟩ := h
  rw [List.chain'_iff_get]
  intro k hk
  have hk1 : k < r.length := by omega
  have hk2 : k + 1 < r.length := by omega
  obtain ⟨f1, l1⟩ := hflags k hk1
  obtain ⟨f2, l2⟩ := hflags (k + 1) hk2
  have hget1 : r.get ⟨k, hk1⟩ = r.getD k dAtom := by
    rw [List.getD_eq_getElem _ dAtom hk1]
    simp
  have hget2 : r.get ⟨k + 1, hk2⟩ = r.getD (k + 1) dAtom := by
    rw [List.getD_eq_getElem _ dAtom hk2]
    simp
  rw [hget1, hget2]
  constructor
  · rw [f2, l1]
    simp only [decide_eq_decide]
    constructor
    · intro hh
      omega
    · intro hh
      omega
  · rw [l1]
    have hnk : ¬ (k = r.length - 1) := by omega
    rw [decide_eq_false hnk]
    rw [if_neg (by simp)]
    rw [hids (r.getD (k + 1) dAtom) (getD_mem r (k + 1) hk2),
      hids (r.getD k dAtom) (getD_mem r k hk1)]

theorem flatten_chain (runs : List (List Atom)) :
    ∀ c : Nat, (∀ j, j < runs.length → RunShape (runs.getD j []) (c + j)) →
    List.Chain' AdjOK runs.flatten ∧
    (runs.flatten ≠ [] → ((runs.flatten).getLastD dAtom).is_last_in_node = true) ∧
    (runs.flatten ≠ [] → ((runs.flatten).headD dAtom).is_first_in_node = true ∧
      ((runs.flatten).headD dAtom).node_id = c) := by
  induction runs with
  | nil =>
    intro c hsh
    simp
  | cons r rest ih =>
    intro c hsh
    have hr : RunShape r c := by
      simpa using hsh 0 (by simp)
    have hshift : ∀ j, j < rest.length → RunShape (rest.getD j []) ((c + 1) + j) := by
      intro j hj
      have := hsh (j + 1) (by simp; omega)
      simp only [List.getD_cons_succ] at this
      rw [show c + (j + 1) = (c + 1) + j from by omega] at this
      exact this
    obtain ⟨ihc, ihl, ihh⟩ := ih (c + 1) hshift
    obtain ⟨hne, hids, hflags⟩ := hr
    have hrlen : 0 < r.length := List.length_pos.mpr hne
    have hrchain := runShape_chain r c ⟨hne, hids, hflags⟩
    have hrlast : (r.getLastD dAtom).is_last_in_node = true := by
      rw [List.getLastD_eq_getLast?, List.getLast?_eq_getElem?]
      rw [← List.getD_eq_getElem?_getD]
      exact ((hflags (r.length - 1) (by omega)).2).trans (by simp)
    have hrhead : (r.headD dAtom).is_first_in_node = true ∧ (r.headD dAtom).node_id = c := by
      have hh := hflags 0 (by omega)
      have hheq : r.headD dAtom = r.getD 0 dAtom := by
        cases r with
        | nil => simp at hne
        | cons x xs => rfl
      refine ⟨by rw [hheq, hh.1]; simp, ?_⟩
      rw [hheq]
      exact hids _ (getD_mem r 0 (by omega))
    simp only [List.flatten_cons]
    refine ⟨?_, ?_, ?_⟩
    · rw [List.chain'_append]
      refine ⟨hrchain, ihc, ?_⟩
      intro x hx y hy
      -- boundary between the run and the rest of the stream
      have hx2 : x = r.getLastD dAtom := by
        rw [List.getLastD_eq_getLast?]
        cases hglast : r.getLast? with
        | none => rw [hglast] at hx; cases hx
        | some z =>
          rw [hglast] at hx
          simp at hx
          simp [hx]
      have hy2 : y = (rest.flatten).headD dAtom ∧ rest.flatten ≠ [] := by
        cases hfl : rest.flatten with
        | nil => rw [hfl] at hy; cases hy
        | cons z zs =>
          rw [hfl] at hy
          simp at hy
          simp [hy]
      obtain ⟨hy3, hfne⟩ := hy2
      obtain ⟨hyfirst, hyid⟩ := ihh hfne
      constructor
      · rw [hx2, hy3, hyfirst, hrlast]
      · rw [hx2, hrlast]
        rw [if_pos rfl]
        rw [hy3, hyid]
        have hxid : (r.getLastD dAtom).node_id = c := by
          rw [List.getLastD_eq_getLast?, List.getLast?_eq_getElem?,
            ← List.getD_eq_getElem?_getD]
          exact hids _ (getD_mem r (r.length - 1) (by omega))
        rw [hxid]
        omega
    · intro hne2
      cases hfl : rest.flatten with
      | nil =>
        rw [List.append_nil]
        exact hrlast
      | cons z zs =>
        rw [List.getLastD_eq_getLast?, List.getLast?_append_cons]
        rw [← List.getLastD_eq_getLast?]
        have := ihl (by rw [hfl]; simp)
        rw [hfl] at this
        exact this
    · intro hne2
      cases r with
      | nil => simp at hne
      | cons x xs =>
        simp only [List.cons_append, List.headD_cons]
        exact hrhead

theorem getLastD_mem (l : List Atom) (d : Atom) (h : l ≠ []) : l.getLastD d ∈ l := by
  rw [List.getLastD_eq_getLast?]
  cases hgl : l.getLast? with
  | none => exact absurd (List.getLast?_eq_none_iff.mp hgl) h
  | some z =>
    simp only [Option.getD_some]
    obtain ⟨hne2, heq⟩ := @List.mem_getLast?_eq_getLast _ l z (by rw [hgl]; rfl)
    rw [heq]
    exact List.getLast_mem hne2

theorem headD_append_left (l1 l2 : List Atom) (d : Atom) (h : l1 ≠ []) :
    (l1 ++ l2).headD d = l1.headD d := by
  cases l1 with
  | nil => exact absurd rfl h
  | cons x xs => rfl

theorem chain_append_last (l1 : List Atom) (x : Atom) (l2 : List Atom)
    (h : List.Chain' AdjOK (l1 ++ x :: l2)) (hne : l1 ≠ []) :
    AdjOK (l1.getLastD dAtom) x := by
  obtain ⟨h1, h2, h3⟩ := List.chain'_append.mp h
  cases hgl : l1.getLast? with
  | none => exact absurd (List.getLast?_eq_none_iff.mp hgl) hne
  | some z =>
    have hz : AdjOK z x := h3 z (by rw [hgl]; rfl) x (by simp)
    rw [List.getLastD_eq_getLast?, hgl]
    simpa using hz

theorem innerStep_wf (tok : String → Nat) (size : Nat) (prev : Option Nat) (a : Atom)
    (i : Nat) (chunk : Chunk) (aic scope : List Atom) (sid : Option Nat)
    (recs : List LineRec) (rest2 : List Atom)
    (Hch : List.Chain' AdjOK (scope ++ (a :: rest2)))
    (Hsl : scope ≠ [] → (scope.getLastD dAtom).is_last_in_node = false)
    (Hsid : scope ≠ [] → sid = some ((scope.headD dAtom).node_id))
    (Huni : ∀ x ∈ scope, x.node_id = (scope.headD dAtom).node_id) :
    (∀ st, innerStep tok size prev a i chunk aic scope sid recs = .brk st →
      st.scope = [] ∧ ∀ r ∈ st.recs, r ∈ recs ∨ RunOK prev r) ∧
    (∀ c2 a2 s2 sid2 r2, innerStep tok size prev a i chunk aic scope sid recs
        = .go c2 a2 s2 sid2 r2 →
      (∀ r ∈ r2, r ∈ recs ∨ RunOK prev r) ∧
      (s2 = [] ∨ s2 = scope ++ [a]) ∧
      (s2 ≠ [] → (s2.getLastD dAtom).is_last_in_node = false) ∧
      (s2 ≠ [] → sid2 = some ((s2.headD dAtom).node_id)) ∧
      (∀ x ∈ s2, x.node_id = (s2.headD dAtom).node_id)) := by
  have hbound : scope ≠ [] → AdjOK (scope.getLastD dAtom) a :=
    fun h => chain_append_last scope a rest2 Hch h
  have hfirstscope : scope ≠ [] → a.is_first_in_node = false := by
    intro h
    rw [(hbound h).1, Hsl h]
  have haid : scope ≠ [] → a.node_id = ((scope.headD dAtom).node_id) := by
    intro h
    have hb := (hbound h).2
    rw [Hsl h] at hb
    simp only [Bool.false_eq_true, if_neg] at hb
    rw [hb]
    exact Huni _ (getLastD_mem scope dAtom h)
  have hheadapp : (scope ++ [a]).headD dAtom
      = if scope = [] then a else scope.headD dAtom := by
    cases scope with
    | nil => rfl
    | cons x xs => rfl
  have hsidupd : scopeIdUpd scope sid a = some (((scope ++ [a]).headD dAtom).node_id) := by
    rw [hheadapp]
    unfold scopeIdUpd
    cases hsc : scope with
    | nil => simp
    | cons x xs =>
      have hne : scope ≠ [] := by rw [hsc]; simp
      rw [← hsc]
      rw [if_neg (by simp [hsc]), if_neg (by simp [hsc])]
      exact Hsid hne
  have hunilift : ∀ x ∈ scope ++ [a], x.node_id = (((scope ++ [a]).headD dAtom).node_id) := by
    intro x hx
    rw [hheadapp]
    rcases List.mem_append.mp hx with hx2 | hx2
    · have hne : scope ≠ [] := by
        intro hcon
        rw [hcon] at hx2
        cases hx2
      rw [if_neg hne]
      exact Huni x hx2
    · simp at hx2
      subst hx2
      cases hsc : scope with
      | nil => simp
      | cons y ys =>
        rw [if_neg (by simp)]
        rw [← hsc]
        exact haid (by rw [hsc]; simp)
  have hicchar : isContinuation prev (scopeIdUpd scope sid a) (scope ++ [a])
      = ((prev == some (((scope ++ [a]).headD dAtom).node_id))
          && !((scope ++ [a]).headD dAtom).is_first_in_node) := by
    rw [hsidupd]
    unfold isContinuation
    cases scope <;> simp
  refine ⟨?_, ?_⟩
  · intro st hst
    unfold innerStep at hst
    split at hst
    · rename_i hfirst
      have hscnil : scope = [] := by
        by_contra hcon
        rw [hfirstscope hcon] at hfirst
        cases hfirst
      subst hscnil
      rw [if_neg (by simp)] at hst
      simp only [List.append_nil, ite_true] at hst
      unfold startScope at hst
      split at hst
      · cases hst
        exact ⟨rfl, fun r hr => Or.inl hr⟩
      · split at hst
        · cases hst
        · cases hst
    · rename_i hfirst
      unfold extendScope at hst
      split at hst
      · rename_i hcond
        cases hst
        refine ⟨rfl, ?_⟩
        intro r hr
        rcases List.mem_append.mp hr with hr2 | hr2
        · exact Or.inl hr2
        · simp at hr2
          subst hr2
          right
          refine ⟨hcond.2, Huni, ?_, ?_⟩
          · rw [hicchar, headD_append_left scope [a] dAtom hcond.2]
          · rw [Hsl hcond.2]
            rfl
      · split at hst
        · cases hst
        · cases hst
  · intro c2 a2 s2 sid2 r2 hst
    unfold innerStep at hst
    split at hst
    · rename_i hfirst
      have hscnil : scope = [] := by
        by_contra hcon
        rw [hfirstscope hcon] at hfirst
        cases hfirst
      subst hscnil
      rw [if_neg (by simp)] at hst
      simp only [List.append_nil, ite_true] at hst
      unfold startScope at hst
      split at hst
      · cases hst
      · split at hst
        · rename_i hlastA
          cases hst
          refine ⟨?_, Or.inl rfl, by simp, by simp, by simp⟩
          intro r hr
          rcases List.mem_append.mp hr with hr2 | hr2
          · exact Or.inl hr2
          · simp at hr2
            subst hr2
            right
            refine ⟨by simp, by simp, ?_, ?_⟩
            · unfold isContinuation
              simp
            · simp [hlastA]
        · rename_i hlastA
          cases hst
          refine ⟨fun r hr => Or.inl hr, Or.inr (by simp), ?_, ?_, ?_⟩
          · intro hne
            have h1 : (([a] : List Atom)).getLastD dAtom = a := List.getLastD_concat dAtom a []
            rw [h1]
            simpa using hlastA
          · intro hne
            simp
          · intro x hx
            simp at hx
            subst hx
            simp
    · rename_i hfirst
      unfold extendScope at hst
      split at hst
      · cases hst
      · rename_i hcond
        split at hst
        · rename_i hlastA
          cases hst
          refine ⟨?_, Or.inl rfl, by simp, by simp, by simp⟩
          intro r hr
          rcases List.mem_append.mp hr with hr2 | hr2
          · exact Or.inl hr2
          · simp at hr2
            subst hr2
            right
            refine ⟨by simp, hunilift, hicchar, ?_⟩
            rw [List.getLastD_concat]
            simp [hlastA]
        · rename_i hlastA
          cases hst
          refine ⟨fun r hr => Or.inl hr, Or.inr rfl, ?_, ?_, hunilift⟩
          · intro hne
            rw [List.getLastD_concat]
            simpa using hlastA
          · intro hne
            exact hsidupd

theorem getLastD_append_right (l1 l2 : List Atom) (d : Atom) (h : l2 ≠ []) :
    (l1 ++ l2).getLastD d = l2.getLastD d := by
  cases l2 with
  | nil => exact absurd rfl h
  | cons y ys =>
    rw [List.getLastD_eq_getLast?, List.getLastD_eq_getLast?, List.getLast?_append_cons]

/-- Along a locally well-formed atom suffix, every line record the inner loop
emits satisfies RunOK, and a leftover scope reaches the end of the suffix and
never ends in a node-last atom. -/
theorem innerLoop_wf (tok : String → Nat) (size : Nat) (prev : Option Nat) :
    ∀ (rest : List Atom) (i : Nat) (chunk : Chunk) (aic scope : List Atom)
      (sid : Option Nat) (recs : List LineRec),
    List.Chain' AdjOK (scope ++ rest) →
    (scope ≠ [] → (scope.getLastD dAtom).is_last_in_node = false) →
    (scope ≠ [] → sid = some ((scope.headD dAtom).node_id)) →
    (∀ x ∈ scope, x.node_id = ((scope.headD dAtom).node_id)) →
    (∀ r ∈ (innerLoop tok size prev rest i chunk aic scope sid recs).recs,
        r ∈ recs ∨ RunOK prev r) ∧
    ((innerLoop tok size prev rest i chunk aic scope sid recs).scope ≠ [] →
        ((innerLoop tok size prev rest i chunk aic scope sid recs).scope.getLastD dAtom)
            = ((scope ++ rest).getLastD dAtom) ∧
        ((innerLoop tok size prev rest i chunk aic scope sid recs).scope.getLastD
            dAtom).is_last_in_node = false) := by
  intro rest
  induction rest with
  | nil =>
    intro i chunk aic scope sid recs Hch Hsl Hsid Huni
    constructor
    · intro r hr
      exact Or.inl hr
    · intro hne
      rw [innerLoop] at hne ⊢
      refine ⟨by simp, Hsl hne⟩
  | cons a rest2 ih =>
    intro i chunk aic scope sid recs Hch Hsl Hsid Huni
    have hstep := innerStep_wf tok size prev a i chunk aic scope sid recs rest2 Hch Hsl Hsid Huni
    cases hs : innerStep tok size prev a i chunk aic scope sid recs with
    | brk st =>
      have hl : innerLoop tok size prev (a :: rest2) i chunk aic scope sid recs = st := by
        rw [innerLoop, hs]
      rw [hl]
      obtain ⟨hsc, hrecs⟩ := hstep.1 st hs
      constructor
      · exact hrecs
      · intro hne
        rw [hsc] at hne
        exact absurd rfl hne
    | go c2 a2 s2 sid2 r2 =>
      have hl : innerLoop tok size prev (a :: rest2) i chunk aic scope sid recs
          = innerLoop tok size prev rest2 (i + 1) c2 a2 s2 sid2 r2 := by
        rw [innerLoop, hs]
      rw [hl]
      obtain ⟨hrecs, hs2, Hsl2, Hsid2, Huni2⟩ := hstep.2 c2 a2 s2 sid2 r2 hs
      have Hch2 : List.Chain' AdjOK (s2 ++ rest2) := by
        rcases hs2 with h2 | h2
        · subst h2
          simp only [List.nil_append]
          have := (List.chain'_append.mp Hch).2.1
          exact this.tail
        · subst h2
          rw [List.append_assoc]
          simpa using Hch
      obtain ⟨ihr, ihs⟩ := ih (i + 1) c2 a2 s2 sid2 r2 Hch2 Hsl2 Hsid2 Huni2
      constructor
      · intro r hr
        rcases ihr r hr with hr2 | hr2
        · exact hrecs r hr2
        · exact Or.inr hr2
      · intro hne
        obtain ⟨hgl, hlf⟩ := ihs hne
        refine ⟨?_, hlf⟩
        rw [hgl]
        rcases hs2 with h2 | h2
        · subst h2
          simp only [List.nil_append]
          have hr2ne : rest2 ≠ [] := by
            intro hcon
            subst hcon
            rw [innerLoop] at hne
            exact absurd rfl hne
          rw [show scope ++ a :: rest2 = (scope ++ [a]) ++ rest2 by simp]
          rw [getLastD_append_right _ _ _ hr2ne]
        · subst h2
          rw [List.append_assoc]
          simp

/-- innerStep on a non-first atom with an empty scope always continues the
loop, consuming exactly that atom into aic or scope. -/
theorem innerStep_notfirst_go (tok : String → Nat) (size : Nat) (prev : Option Nat)
    (a : Atom) (i : Nat) (chunk : Chunk) (recs0 : List LineRec)
    (hfa : a.is_first_in_node = false) :
    ∃ c2 a2 s2 sid2 r2, innerStep tok size prev a i chunk [] [] none recs0
        = .go c2 a2 s2 sid2 r2 ∧ a2 ++ s2 = [a] := by
  rw [innerStep, if_neg (by simp [hfa]), extendScope, if_neg (by simp)]
  by_cases hl : a.is_last_in_node
  · rw [if_pos hl]
    exact ⟨_, _, _, _, _, rfl, by simp⟩
  · rw [if_neg hl]
    exact ⟨_, _, _, _, _, rfl, by simp⟩

/-- If the inner loop starts with empty accumulators at a mid-run atom, it
consumes at least that atom: aic and scope cannot both come back empty. -/
theorem innerLoop_consumes (tok : String → Nat) (size : Nat) (prev : Option Nat)
    (a : Atom) (rest2 : List Atom) (i : Nat) (chunk : Chunk)
    (hfa : a.is_first_in_node = false) :
    (innerLoop tok size prev (a :: rest2) i chunk [] [] none []).aic
      ++ (innerLoop tok size prev (a :: rest2) i chunk [] [] none []).scope ≠ [] := by
  obtain ⟨c2, a2, s2, sid2, r2, hgo, hout⟩ :=
    innerStep_notfirst_go tok size prev a i chunk [] hfa
  have hl : innerLoop tok size prev (a :: rest2) i chunk [] [] none []
      = innerLoop tok size prev rest2 (i + 1) c2 a2 s2 sid2 r2 := by
    rw [innerLoop, hgo]
  rw [hl]
  obtain ⟨D, h1, h2, h3, h4, h5, h6, h7⟩ :=
    innerLoop_spec tok size prev rest2 (i + 1) c2 a2 s2 sid2 r2
  rw [h4, hout]
  simp

/-- Under a locally well-formed atom stream ending on a node-last atom, every
line record chunkBody emits satisfies RunOK for the prev owner it was given. -/
theorem chunkBody_wf (tok : String → Nat) (size : Nat) (includePath notFirst : Bool)
    (atoms : List Atom) (prev : Option Nat) (start : Nat)
    (Hch : List.Chain' AdjOK atoms)
    (Hlast : atoms ≠ [] → (atoms.getLastD dAtom).is_last_in_node = true) :
    ∀ r ∈ (chunkBody tok size includePath notFirst atoms prev start).recs,
      RunOK prev r := by
  have Hchd : List.Chain' AdjOK (atoms.drop start) := by
    have h := Hch
    rw [← List.take_append_drop start atoms] at h
    exact (List.chain'_append.mp h).2.1
  unfold chunkBody
  set st := innerLoop tok size prev (atoms.drop start) start
    (ctxChunk tok includePath notFirst (atoms.getD start dAtom).chunk_context)
    [] [] none [] with hstdef
  obtain ⟨hrecs, hscope⟩ := innerLoop_wf tok size prev (atoms.drop start) start
    (ctxChunk tok includePath notFirst (atoms.getD start dAtom).chunk_context)
    [] [] none [] (by simpa using Hchd) (by simp) (by simp) (by simp)
  rw [← hstdef] at hrecs hscope
  have hstnil : st.scope = [] := by
    by_contra hne
    obtain ⟨hgl, hlf⟩ := hscope hne
    have hdne : atoms.drop start ≠ [] := by
      intro hd
      rw [hstdef, hd, innerLoop] at hne
      exact hne rfl
    have hane : atoms ≠ [] := by
      intro hcon
      rw [hcon] at hdne
      simp at hdne
    have hgd : ((atoms.drop start).getLastD dAtom) = atoms.getLastD dAtom := by
      conv_rhs => rw [← List.take_append_drop start atoms]
      rw [getLastD_append_right _ _ _ hdne]
    simp only [List.nil_append] at hgl
    rw [hgl, hgd, Hlast hane] at hlf
    cases hlf
  have hep : bodyEpilogue tok size prev
      (ctxPiecesOf includePath notFirst (atoms.getD start dAtom).chunk_context) st
      = ⟨st.chunk, st.aic, st.recs,
          ctxPiecesOf includePath notFirst (atoms.getD start dAtom).chunk_context, st.i⟩ := by
    rw [bodyEpilogue, if_neg (by simp [hstnil])]
  rw [hep]
  obtain ⟨D, g1, g2, g3, g4, g5, g6, g7⟩ :=
    innerLoop_spec tok size prev (atoms.drop start) start
      (ctxChunk tok includePath notFirst (atoms.getD start dAtom).chunk_context)
      [] [] none []
  rw [← hstdef] at g1 g2 g3 g4 g5 g6 g7
  by_cases hg : st.aic = [] ∧ st.i < atoms.length
  · rw [bodySafety, if_pos hg]
    have hdne : atoms.drop start ≠ [] := by
      intro hd
      have := List.drop_eq_nil_iff.mp hd
      omega
    have hi0 : st.i = start := by
      rw [hg.1, hstnil] at g4
      simp only [List.append_nil, List.nil_append] at g4
      have ht := g4.symm
      rcases (List.take_eq_nil_iff).mp ht with h0 | h0
      · omega
      · exact absurd h0 hdne
    have hsn : start < atoms.length := by omega
    by_cases hfa : (atoms.getD start dAtom).is_first_in_node = true
    · intro r hr
      simp only [List.mem_append, List.mem_singleton] at hr
      rcases hr with hr2 | hr2
      · rcases hrecs r hr2 with h0 | h0
        · simp at h0
        · exact h0
      · rw [hi0] at hr2
        subst hr2
        refine ⟨by simp, by simp, ?_, ?_⟩
        · show false = ((prev == some ((atoms.getD start dAtom).node_id))
            && !(atoms.getD start dAtom).is_first_in_node)
          rw [hfa]
          simp
        · have h1 : (([atoms.getD start dAtom] : List Atom)).getLastD dAtom
              = atoms.getD start dAtom := List.getLastD_concat dAtom (atoms.getD start dAtom) []
          rw [h1]
    · exfalso
      have hfa2 : (atoms.getD start dAtom).is_first_in_node = false := by
        cases hq : (atoms.getD start dAtom).is_first_in_node
        · rfl
        · exact absurd hq hfa
      have hdecomp : atoms.drop start = (atoms.getD start dAtom) :: atoms.drop (start + 1) := by
        rw [List.getD_eq_getElem _ dAtom hsn]
        exact List.drop_eq_getElem_cons hsn
      have hcons := innerLoop_consumes tok size prev (atoms.getD start dAtom)
        (atoms.drop (start + 1)) start
        (ctxChunk tok includePath notFirst (atoms.getD start dAtom).chunk_context) hfa2
      rw [← hdecomp, ← hstdef] at hcons
      rw [hg.1, hstnil] at hcons
      exact hcons rfl
  · rw [bodySafety, if_neg hg]
    intro r hr
    rcases hrecs r hr with h0 | h0
    · simp at h0
    · exact h0

/-- On a locally well-formed stream ending on a node-last atom, every line
record of every packed chunk satisfies RunOK for that chunk's recorded prev
owner. -/
theorem packLoop_wf (tok : String → Nat) (size overlapTokens : Nat) (includePath : Bool)
    (atoms : List Atom) (Hch : List.Chain' AdjOK atoms)
    (Hlast : atoms ≠ [] → (atoms.getLastD dAtom).is_last_in_node = true) :
    ∀ (fuel i : Nat) (prev : Option Nat) (nf : Bool),
      ∀ pc ∈ packLoop tok size overlapTokens includePath atoms fuel i prev nf,
        ∀ r ∈ pc.recs, RunOK pc.prevOwner r := by
  intro fuel
  induction fuel with
  | zero =>
    intro i prev nf pc hpc
    rw [packLoop] at hpc
    cases hpc
  | succ f ih =>
    intro i prev nf pc hpc
    by_cases hi : i < atoms.length
    · rw [packLoop_cons tok size overlapTokens includePath atoms f i prev nf hi] at hpc
      rcases List.mem_cons.mp hpc with h0 | h0
      · subst h0
        intro r hr
        exact chunkBody_wf tok size includePath nf atoms prev i Hch Hlast r hr
      · split at h0
        · split at h0
          · exact ih _ _ _ pc h0
          · exact ih _ _ _ pc h0
        · exact ih _ _ _ pc h0
    · rw [packLoop, if_neg hi] at hpc
      cases hpc

theorem runsDecomp_tail (r : List Atom) (A : List (List Atom))
    (h : RunsDecomp (r :: A)) : RunsDecomp A := by
  obtain ⟨h1, h2⟩ := h
  exact ⟨fun s hs => h1 s (by simp [hs]), h2.tail⟩

theorem headD_owner_flatten (r : List Atom) (A : List (List Atom)) (hr : r ≠ []) :
    ((r :: A).flatten.headD dAtom) = r.headD dAtom := by
  cases r with
  | nil => exact absurd rfl hr
  | cons a as => rfl

theorem getD_flatten_left (r : List Atom) (l : List Atom) (k : Nat)
    (hk : k < r.length) : (r ++ l).getD k dAtom = r.getD k dAtom :=
  List.getD_append r l dAtom k hk

theorem decomp_head_len (A B : List (List Atom)) (r s : List Atom)
    (hA : RunsDecomp (r :: A)) (hB : RunsDecomp (s :: B))
    (hf : (r :: A).flatten = (s :: B).flatten) : r.length ≤ s.length := by
  by_contra hgt
  push_neg at hgt
  obtain ⟨hAr, hAc⟩ := hA
  obtain ⟨hBr, hBc⟩ := hB
  obtain ⟨hrne, hruni⟩ := hAr r (by simp)
  obtain ⟨hsne, hsuni⟩ := hBr s (by simp)
  have hheads : (r.headD dAtom).node_id = (s.headD dAtom).node_id := by
    have h1 := headD_owner_flatten r A hrne
    have h2 := headD_owner_flatten s B hsne
    rw [← h1, ← h2, hf]
  cases B with
  | nil =>
    have hlen := congrArg List.length hf
    simp only [List.flatten_cons, List.flatten_nil, List.length_append,
      List.append_nil] at hlen
    omega
  | cons s2 B2 =>
    obtain ⟨hs2ne, hs2uni⟩ := hBr s2 (by simp)
    have hmid : ((r :: A).flatten.getD s.length dAtom).node_id
        = (r.headD dAtom).node_id := by
      rw [List.flatten_cons, getD_flatten_left r A.flatten s.length hgt]
      have hmem : r.getD s.length dAtom ∈ r := by
        rw [List.getD_eq_getElem _ dAtom hgt]
        exact List.getElem_mem hgt
      exact hruni _ hmem
    have hmid2 : ((s :: s2 :: B2).flatten.getD s.length dAtom).node_id
        = (s2.headD dAtom).node_id := by
      rw [List.flatten_cons]
      rw [List.getD_append_right s ((s2 :: B2).flatten) dAtom s.length (by omega)]
      simp only [Nat.sub_self]
      rw [List.flatten_cons, getD_flatten_left s2 B2.flatten 0
        (by cases s2 with | nil => exact absurd rfl hs2ne | cons x xs => simp)]
      have hmem : s2.getD 0 dAtom ∈ s2 := by
        cases s2 with
        | nil => exact absurd rfl hs2ne
        | cons x xs => simp
      exact hs2uni _ hmem
    have hneq : (s.headD dAtom).node_id ≠ (s2.headD dAtom).node_id :=
      List.chain'_cons.mp hBc |>.1
    rw [hf] at hmid
    rw [hmid2] at hmid
    rw [hheads] at hmid
    exact hneq hmid.symm

theorem decomp_unique : ∀ (A B : List (List Atom)), RunsDecomp A → RunsDecomp B →
    A.flatten = B.flatten → A = B := by
  intro A
  induction A with
  | nil =>
    intro B hA hB hf
    cases B with
    | nil => rfl
    | cons s B2 =>
      obtain ⟨hsne, _⟩ := hB.1 s (by simp)
      exfalso
      have := hf.symm
      rw [List.flatten_cons] at this
      simp only [List.flatten_nil] at this
      cases s with
      | nil => exact absurd rfl hsne
      | cons x xs => cases this
  | cons r A2 ih =>
    intro B hA hB hf
    cases B with
    | nil =>
      obtain ⟨hrne, _⟩ := hA.1 r (by simp)
      exfalso
      rw [List.flatten_cons] at hf
      simp only [List.flatten_nil] at hf
      cases r with
      | nil => exact absurd rfl hrne
      | cons x xs => cases hf
    | cons s B2 =>
      have h1 := decomp_head_len A2 B2 r s hA hB hf
      have h2 := decomp_head_len B2 A2 s r hB hA hf.symm
      have hlen : r.length = s.length := by omega
      have hr : r = s := by
        have e1 : ((r :: A2).flatten).take r.length = r := by
          rw [List.flatten_cons]
          exact List.take_left r A2.flatten
        have e2 : ((s :: B2).flatten).take s.length = s := by
          rw [List.flatten_cons]
          exact List.take_left s B2.flatten
        rw [← e1, ← e2, hf, hlen]
      subst hr
      have htails : A2.flatten = B2.flatten := by
        rw [List.flatten_cons, List.flatten_cons] at hf
        exact List.append_cancel_left hf
      rw [ih B2 (runsDecomp_tail r A2 hA) (runsDecomp_tail r B2 hB) htails]

theorem mergeAux_spec : ∀ (RL : List (List Atom)) (cur : List Atom),
    cur ≠ [] → (∀ a ∈ cur, a.node_id = (cur.headD dAtom).node_id) →
    (∀ r ∈ RL, r ≠ [] ∧ ∀ a ∈ r, a.node_id = (r.headD dAtom).node_id) →
    (mergeAux cur RL).flatten = cur ++ RL.flatten ∧
    RunsDecomp (mergeAux cur RL) ∧
    (mergeAux cur RL) ≠ [] ∧
    (((mergeAux cur RL).headD []).headD dAtom) = cur.headD dAtom := by
  intro RL
  induction RL with
  | nil =>
    intro cur hne huni _
    refine ⟨by simp [mergeAux], ⟨?_, by simp [mergeAux]⟩, by simp [mergeAux], by simp [mergeAux]⟩
    intro r hr
    rw [mergeAux] at hr
    simp at hr
    subst hr
    exact ⟨hne, huni⟩
  | cons r rest ih =>
    intro cur hne huni hall
    obtain ⟨hrne, hruni⟩ := hall r (by simp)
    have hrest : ∀ s ∈ rest, s ≠ [] ∧ ∀ a ∈ s, a.node_id = (s.headD dAtom).node_id :=
      fun s hs => hall s (by simp [hs])
    rw [mergeAux]
    by_cases hsame : (r.headD dAtom).node_id = (cur.headD dAtom).node_id
    · rw [if_pos hsame]
      have hcurne : cur ++ r ≠ [] := by
        intro hcon
        exact hne (List.append_eq_nil.mp hcon).1
      have hheadcr : (cur ++ r).headD dAtom = cur.headD dAtom :=
        headD_append_left cur r dAtom hne
      have hcuruni : ∀ a ∈ cur ++ r, a.node_id = ((cur ++ r).headD dAtom).node_id := by
        intro a ha
        rw [hheadcr]
        rcases List.mem_append.mp ha with h0 | h0
        · exact huni a h0
        · rw [hruni a h0]
          exact hsame
      obtain ⟨g1, g2, g3, g4⟩ := ih (cur ++ r) hcurne hcuruni hrest
      refine ⟨?_, g2, g3, by rw [g4, hheadcr]⟩
      rw [g1, List.flatten_cons, List.append_assoc]
    · rw [if_neg hsame]
      obtain ⟨g1, g2, g3, g4⟩ := ih r hrne hruni hrest
      refine ⟨?_, ⟨?_, ?_⟩, by simp, by simp [List.headD_cons, hne]⟩
      · rw [List.flatten_cons, g1, List.flatten_cons]
      · intro s hs
        rcases List.mem_cons.mp hs with h0 | h0
        · subst h0
          exact ⟨hne, huni⟩
        · exact g2.1 s h0
      · cases hm : mergeAux r rest with
        | nil => exact absurd hm g3
        | cons m ms =>
          rw [List.chain'_cons]
          constructor
          · have : (m.headD dAtom) = ((mergeAux r rest).headD []).headD dAtom := by
              rw [hm]
              rfl
            rw [this, g4]
            intro hcon
            exact hsame hcon.symm
          · have := g2.2
            rw [hm] at this
            exact this

theorem mergeByOwner_spec (RL : List (List Atom))
    (h : ∀ r ∈ RL, r ≠ [] ∧ ∀ a ∈ r, a.node_id = (r.headD dAtom).node_id) :
    (mergeByOwner RL).flatten = RL.flatten ∧ RunsDecomp (mergeByOwner RL) := by
  cases RL with
  | nil =>
    refine ⟨rfl, ?_, ?_⟩
    · intro r hr
      rw [mergeByOwner] at hr
      cases hr
    · rw [mergeByOwner]
      exact List.chain'_nil
  | cons r rest =>
    obtain ⟨hrne, hruni⟩ := h r (by simp)
    obtain ⟨g1, g2, _, _⟩ := mergeAux_spec rest r hrne hruni
      (fun s hs => h s (by simp [hs]))
    exact ⟨by rw [mergeByOwner, g1, List.flatten_cons], g2⟩

theorem headD_mem (l : List Atom) (d : Atom) (h : l ≠ []) : l.headD d ∈ l := by
  cases l with
  | nil => exact absurd rfl h
  | cons x xs => simp

/-- The facts chunking relies on about the serialized stream of a well-formed
tree: it is the flatten of the per-node runs, locally well formed, ends on a
node-last atom, and the runs are a maximal single-owner decomposition. -/
theorem stream_facts (t : STree) (atoms : List Atom) (hwf : wfTree t = true)
    (hs : atomStream t = .ok atoms) :
    atoms = (runsOfD t).flatten ∧
    List.Chain' AdjOK atoms ∧
    (atoms ≠ [] → (atoms.getLastD dAtom).is_last_in_node = true) ∧
    RunsDecomp (runsOfD t) ∧
    runsOfD t ≠ [] := by
  obtain ⟨runs, c2, h1, h2, h3, h4⟩ := irT_ok t 0 [] 0 hwf
  have hrd : runsOfD t = runs := by rw [runsOfD, h1]
  rw [atomStream, h1] at hs
  simp only [Except.ok.injEq] at hs
  have hsh : ∀ j, j < runs.length → RunShape (runs.getD j []) (0 + j) := h4
  obtain ⟨hch, hlast, _⟩ := flatten_chain runs 0 hsh
  refine ⟨by rw [hrd, hs], by rw [hs] at hch; exact hch, ?_, ?_, ?_⟩
  · intro hne
    rw [← hs]
    rw [← hs] at hne
    exact hlast hne
  · rw [hrd]
    constructor
    · intro r hr
      obtain ⟨j, hj, hjr⟩ := List.mem_iff_getElem.mp hr
      have hshj := h4 j hj
      obtain ⟨sne, suni, _⟩ := hshj
      have hget : runs.getD j [] = r := by
        rw [List.getD_eq_getElem _ [] hj, hjr]
      rw [hget] at sne suni
      refine ⟨sne, ?_⟩
      intro a ha
      rw [suni a ha, suni _ (headD_mem r dAtom sne)]
    · rw [List.chain'_iff_get]
      intro k hk
      have hs1 := h4 k (by omega)
      have hs2 := h4 (k + 1) (by omega)
      obtain ⟨ne1, uni1, _⟩ := hs1
      obtain ⟨ne2, uni2, _⟩ := hs2
      have e1 : runs.get ⟨k, by omega⟩ = runs.getD k [] := by
        rw [List.getD_eq_getElem _ [] (by omega)]
        rfl
      have e2 : runs.get ⟨k + 1, by omega⟩ = runs.getD (k + 1) [] := by
        rw [List.getD_eq_getElem _ [] (by omega)]
        rfl
      rw [e1, e2]
      rw [uni1 _ (headD_mem _ dAtom ne1), uni2 _ (headD_mem _ dAtom ne2)]
      omega
  · rw [hrd]
    intro hcon
    rw [hcon] at h3
    simp at h3

/-- Across a chunk list whose per-chunk accounting holds, flattening all
recorded-line atom runs yields the concatenated atoms_in_chunk lists. -/
theorem recs_flatten_aic (tok : String → Nat) (atoms : List Atom)
    (L : List PackedChunk) (h : ∀ pc ∈ L, PcOK tok atoms pc) :
    ((L.map (fun pc => pc.recs.map (fun r => r.1))).flatten).flatten
      = (L.map (fun pc => pc.aic)).flatten := by
  induction L with
  | nil => rfl
  | cons pc rest ih =>
    simp only [List.map_cons, List.flatten_cons, List.flatten_append]
    rw [ih (fun q hq => h q (by simp [hq]))]
    have haic := (h pc (by simp)).2.1
    rw [← haic]

/-- C1, amended: with overlap 0 and a tokenizer that prices every atom content
positively, re-joining the split scope-line runs of all chunks reproduces the
per-node runs of the DFS rendering, hence the unsplit rendering itself. -/
theorem c1_roundtrip (tok : String → Nat) (size : Nat) (includePath : Bool)
    (t : STree) (atoms : List Atom) (hwf : wfTree t = true)
    (hs : atomStream t = .ok atoms) (hpos : ∀ a ∈ atoms, 0 < tok a.content) :
    mergeByOwner (((packFull tok size 0 includePath atoms).map
        (fun pc => pc.recs.map (fun r => r.1))).flatten) = runsOfD t ∧
    renderAll (mergeByOwner (((packFull tok size 0 includePath atoms).map
        (fun pc => pc.recs.map (fun r => r.1))).flatten)) = renderAll (runsOfD t) := by
  obtain ⟨hat, hch, hlast, hdec, hne⟩ := stream_facts t atoms hwf hs
  have hpcok : ∀ pc ∈ packFull tok size 0 includePath atoms, PcOK tok atoms pc :=
    (packLoop_spec tok size 0 includePath atoms atoms.length 0 none false).1
  have hwfrecs := packLoop_wf tok size 0 includePath atoms hch hlast
    atoms.length 0 none false
  have hRL : ∀ r ∈ (((packFull tok size 0 includePath atoms).map
      (fun pc => pc.recs.map (fun r => r.1))).flatten),
      r ≠ [] ∧ ∀ a ∈ r, a.node_id = (r.headD dAtom).node_id := by
    intro r hr
    rw [List.mem_flatten] at hr
    obtain ⟨runs1, hruns1, hrin⟩ := hr
    rw [List.mem_map] at hruns1
    obtain ⟨pc, hpc, hpceq⟩ := hruns1
    subst hpceq
    rw [List.mem_map] at hrin
    obtain ⟨rec, hrec, hreq⟩ := hrin
    subst hreq
    obtain ⟨r1, r2, _, _⟩ := hwfrecs pc hpc rec hrec
    exact ⟨r1, r2⟩
  have hflat : ((((packFull tok size 0 includePath atoms).map
      (fun pc => pc.recs.map (fun r => r.1))).flatten).flatten) = atoms := by
    rw [recs_flatten_aic tok atoms _ hpcok]
    have := packLoop_partition tok size includePath atoms hpos
      atoms.length 0 none false (by omega)
    rw [packFull]
    rw [this]
    simp
  obtain ⟨m1, m2⟩ := mergeByOwner_spec _ hRL
  have heq : mergeByOwner (((packFull tok size 0 includePath atoms).map
      (fun pc => pc.recs.map (fun r => r.1))).flatten) = runsOfD t :=
    decomp_unique _ _ m2 hdec (by rw [m1, hflat, hat])
  exact ⟨heq, by rw [heq]⟩

/-- C2, amended: chunk start indices strictly increase from chunk to chunk;
atoms reappear in the following chunk only as a trailing window whose content
token cost stays within the overlap budget; and with overlap 0 and positively
priced atom contents the chunks partition the atom stream exactly. -/
theorem c2_coverage (tok : String → Nat) (size ov : Nat) (includePath : Bool)
    (atoms : List Atom) :
    List.Chain' (fun p q => p.start < q.start ∧
        (q.start = p.start + p.aic.length ∨
          (q.start < p.start + p.aic.length ∧
            (((atoms.drop q.start).take (p.start + p.aic.length - q.start)).map
              (fun a => tok a.content)).sum ≤ ov)))
      (packFull tok size ov includePath atoms) ∧
    ((∀ a ∈ atoms, 0 < tok a.content) →
      ((packFull tok size 0 includePath atoms).map (fun pc => pc.aic)).flatten
        = atoms) := by
  constructor
  · have hpcok : ∀ pc ∈ packFull tok size ov includePath atoms, PcOK tok atoms pc :=
      (packLoop_spec tok size ov includePath atoms atoms.length 0 none false).1
    have hchain : List.Chain' (PackRel tok ov atoms)
        (packFull tok size ov includePath atoms) :=
      (packLoop_spec tok size ov includePath atoms atoms.length 0 none false).2.1
    rw [List.chain'_iff_get] at hchain ⊢
    intro k hk
    have hrel := hchain k hk
    have hpok := hpcok ((packFull tok size ov includePath atoms).get
      ⟨k, by omega⟩) (List.get_mem _ _ _)
    exact ⟨hrel.1, packRel_window tok ov atoms _ _ hrel hpok⟩
  · intro hpos
    have := packLoop_partition tok size includePath atoms hpos
      atoms.length 0 none false (by omega)
    rw [packFull, this]
    simp

/-- C3: chunking a well-formed tree always returns a chunk list, with at most
one chunk per stream atom, and every chunk-building pass started strictly
inside the stream strictly advances the cursor without ever moving it past the end. -/
theorem c3_termination (tok : String → Nat) (size ov : Nat) (includePath : Bool)
    (t : STree) (hwf : wfTree t = true) :
    ∃ atoms, atomStream t = .ok atoms ∧
      chunkSemanticIR tok t size ov includePath
        = .ok (if atoms.isEmpty then []
               else (packFull tok size ov includePath atoms).map PackedChunk.chunk) ∧
      (if atoms.isEmpty then ([] : List Chunk)
       else (packFull tok size ov includePath atoms).map PackedChunk.chunk).length
        ≤ atoms.length ∧
      (∀ (prev : Option Nat) (nf : Bool) (i : Nat), i < atoms.length →
        i < (chunkBody tok size includePath nf atoms prev i).i ∧
        (chunkBody tok size includePath nf atoms prev i).i ≤ atoms.length) := by
  obtain ⟨runs, c2, h1, _, _, _⟩ := irT_ok t 0 [] 0 hwf
  have hsa : atomStream t = .ok runs.flatten := by rw [atomStream, h1]
  refine ⟨runs.flatten, hsa, by rw [chunkSemanticIR, hsa], ?_, ?_⟩
  · split
    · simp
    · rw [List.length_map]
      have := packLoop_length tok size ov includePath runs.flatten
        runs.flatten.length 0 none false
      rw [packFull]
      omega
  · intro prev nf i hi
    exact chunkBody_advance tok size includePath nf runs.flatten prev i hi

/-- C7: each chunk's successor starts exactly where the spec's backward-scan
overlap description places it. -/
theorem c7_overlap (tok : String → Nat) (size ov : Nat) (includePath : Bool)
    (atoms : List Atom) :
    List.Chain' (fun p q => q.start = specNextStart tok ov atoms p)
      (packFull tok size ov includePath atoms) := by
  have hpcok : ∀ pc ∈ packFull tok size ov includePath atoms, PcOK tok atoms pc :=
    (packLoop_spec tok size ov includePath atoms atoms.length 0 none false).1
  have hchain : List.Chain' (PackRel tok ov atoms)
      (packFull tok size ov includePath atoms) :=
    (packLoop_spec tok size ov includePath atoms atoms.length 0 none false).2.1
  rw [List.chain'_iff_get] at hchain ⊢
  intro k hk
  have hrel := hchain k hk
  have hpok := hpcok ((packFull tok size ov includePath atoms).get
    ⟨k, by omega⟩) (List.get_mem _ _ _)
  obtain ⟨_, _, _, haicne, hbound, _, _⟩ := hpok
  set p := (packFull tok size ov includePath atoms).get
    ⟨k, by omega⟩ with hp
  have hlenpos : p.aic.length ≠ 0 := by
    simpa [List.length_eq_zero] using haicne
  have hql := hrel.2.1
  have e0 : p.start + p.aic.length - p.start = p.aic.length := by omega
  have hcnt : overlapCount tok ov atoms p
      = overlapScan tok ov (((atoms.drop p.start).take p.aic.length).reverse) 0 := by
    rw [overlapCount, pcEnd, e0]
  have hcalc : calculateOverlapStart tok atoms p.start (p.start + p.aic.length) ov
      = max (p.start + p.aic.length - overlapCount tok ov atoms p) p.start := by
    unfold calculateOverlapStart
    rw [if_neg (by omega), e0, hcnt]
  have hcle : overlapCount tok ov atoms p ≤ p.aic.length := by
    have hsc := (overlapScan_sum tok ov
      (((atoms.drop p.start).take p.aic.length).reverse) 0 (by omega)).2
    have hlen : (((atoms.drop p.start).take p.aic.length).reverse).length
        = p.aic.length := by
      simp only [List.length_reverse, List.length_take, List.length_drop]
      omega
    rw [hlen] at hsc
    rw [hcnt]
    exact hsc
  rw [hql, nextStartOf, hcalc, specNextStart, pcEnd]
  split
  · split
    · omega
    · omega
  · split
    · omega
    · omega

/-- Metering a fold of string appends under an additive tokenizer. -/
theorem tok_foldl (tok : String → Nat)
    (hadd : ∀ s1 s2 : String, tok (s1 ++ s2) = tok s1 + tok s2) :
    ∀ (l : List String) (acc : String),
      tok (l.foldl (fun a b => a ++ b) acc) = tok acc + (l.map tok).sum := by
  intro l
  induction l with
  | nil =>
    intro acc
    simp
  | cons s rest ih =>
    intro acc
    rw [List.foldl_cons, ih (acc ++ s), hadd]
    simp [Nat.add_assoc]

/-- C4, amended: every produced chunk reports the tokenizer sum of its stored
pieces, which equals the tokenizer count of the rendered markdown exactly when
the tokenizer is additive over string concatenation. -/
theorem c4_tokens (tok : String → Nat) (size ov : Nat) (includePath : Bool)
    (atoms : List Atom) :
    (∀ pc ∈ packFull tok size ov includePath atoms,
      pc.chunk.get_tokens = (pc.chunk.text_pieces.map tok).sum) ∧
    ((∀ s1 s2 : String, tok (s1 ++ s2) = tok s1 + tok s2) →
      ∀ pc ∈ packFull tok size ov includePath atoms,
        pc.chunk.get_tokens = tok (pc.chunk.to_markdown)) := by
  have hpcok : ∀ pc ∈ packFull tok size ov includePath atoms, PcOK tok atoms pc :=
    (packLoop_spec tok size ov includePath atoms atoms.length 0 none false).1
  constructor
  · intro pc hpc
    exact (hpcok pc hpc).2.2.2.2.2.1
  · intro hadd pc hpc
    have h1 : pc.chunk.get_tokens = (pc.chunk.text_pieces.map tok).sum :=
      (hpcok pc hpc).2.2.2.2.2.1
    have hnil : tok "" = 0 := by
      have := hadd "" ""
      simp only [String.append_empty] at this
      omega
    rw [h1, Chunk.to_markdown, String.join]
    rw [tok_foldl tok hadd pc.chunk.text_pieces ""]
    rw [hnil]
    omega

/-- C5, amended: every scope line's is_continuation flag is the
_is_continuation test against the chunk's prev owner value; after the first
chunk that value is the owner of the atom immediately preceding the chunk's
start index (not necessarily the last atom placed in the previous chunk), and
the first chunk carries no prev owner. -/
theorem c5_contopener (tok : String → Nat) (size ov : Nat) (includePath : Bool)
    (t : STree) (atoms : List Atom) (hwf : wfTree t = true)
    (hs : atomStream t = .ok atoms) :
    (∀ pc ∈ packFull tok size ov includePath atoms, ∀ r ∈ pc.recs,
      r.2.1 = ((pc.prevOwner == some ((r.1.headD dAtom).node_id))
        && !(r.1.headD dAtom).is_first_in_node)) ∧
    List.Chain' (fun _ q => q.prevOwner
        = some ((atoms.getD (q.start - 1) dAtom).node_id))
      (packFull tok size ov includePath atoms) ∧
    (packFull tok size ov includePath atoms ≠ [] →
      ((packFull tok size ov includePath atoms).headD dPC).prevOwner = none) := by
  obtain ⟨_, hch, hlast, _, _⟩ := stream_facts t atoms hwf hs
  have hwfrecs := packLoop_wf tok size ov includePath atoms hch hlast
    atoms.length 0 none false
  refine ⟨?_, ?_, ?_⟩
  · intro pc hpc r hr
    exact (hwfrecs pc hpc r hr).2.2.1
  · have hchain : List.Chain' (PackRel tok ov atoms)
        (packFull tok size ov includePath atoms) :=
      (packLoop_spec tok size ov includePath atoms atoms.length 0 none false).2.1
    exact hchain.imp (fun a b hp => hp.2.2)
  · intro hne
    exact ((packLoop_spec tok size ov includePath atoms
      atoms.length 0 none false).2.2 hne).2

theorem getLastD_memg {α : Type} (l : List α) (d : α) (h : l ≠ []) :
    l.getLastD d ∈ l := by
  rw [List.getLastD_eq_getLast?]
  cases hgl : l.getLast? with
  | none => exact absurd (List.getLast?_eq_none_iff.mp hgl) h
  | some z =>
    simp only [Option.getD_some]
    obtain ⟨hne2, heq⟩ := @List.mem_getLast?_eq_getLast _ l z (by rw [hgl]; rfl)
    rw [heq]
    exact List.getLast_mem hne2

theorem headD_memg {α : Type} (l : List α) (d : α) (h : l ≠ []) :
    l.headD d ∈ l := by
  cases l with
  | nil => exact absurd rfl h
  | cons x xs => simp

theorem getLastD_map {α β : Type} (f : α → β) (l : List α) (d : α) (e : β)
    (h : l ≠ []) : (l.map f).getLastD e = f (l.getLastD d) := by
  rw [List.getLastD_eq_getLast?, List.getLastD_eq_getLast?, List.getLast?_map]
  cases hgl : l.getLast? with
  | none => exact absurd (List.getLast?_eq_none_iff.mp hgl) h
  | some z => rfl

theorem headD_map {α β : Type} (f : α → β) (l : List α) (d : α) (e : β)
    (h : l ≠ []) : (l.map f).headD e = f (l.headD d) := by
  cases l with
  | nil => exact absurd rfl h
  | cons x xs => rfl

theorem getLastD_default_irrel {α : Type} (l : List α) (d e : α) (h : l ≠ []) :
    l.getLastD d = l.getLastD e := by
  rw [List.getLastD_eq_getLast?, List.getLastD_eq_getLast?]
  cases hgl : l.getLast? with
  | none => exact absurd (List.getLast?_eq_none_iff.mp hgl) h
  | some z => rfl

/-- The last element of a flatten of nonempty lists is the last element of the
last list. -/
theorem flatten_getLastD (l : List (List Atom)) (d : Atom)
    (h : ∀ r ∈ l, r ≠ []) (hne : l ≠ []) :
    l.flatten.getLastD d = (l.getLastD []).getLastD d := by
  induction l with
  | nil => exact absurd rfl hne
  | cons r rest ih =>
    cases rest with
    | nil => simp
    | cons s rest2 =>
      rw [List.flatten_cons]
      have hfl : (s :: rest2).flatten ≠ [] := by
        have hsne := h s (by simp)
        rw [List.flatten_cons]
        intro hcon
        exact hsne (List.append_eq_nil.mp hcon).1
      rw [getLastD_append_right _ _ _ hfl]
      rw [ih (fun r2 hr2 => h r2 (by simp [hr2])) (by simp)]
      have h1 : (r :: s :: rest2).getLastD ([] : List Atom)
          = (s :: rest2).getLastD r := List.getLastD_cons r [] (s :: rest2)
      rw [h1, getLastD_default_irrel (s :: rest2) r [] (by simp)]

/-- The first element of a flatten whose first list is nonempty is the first
element of that first list. -/
theorem flatten_headD (l : List (List Atom)) (d : Atom)
    (h : ∀ r ∈ l, r ≠ []) (hne : l ≠ []) :
    l.flatten.headD d = (l.headD []).headD d := by
  cases l with
  | nil => exact absurd rfl hne
  | cons r rest =>
    have hrne := h r (by simp)
    cases r with
    | nil => exact absurd rfl hrne
    | cons a as => rfl

/-- Indexing into a take-of-drop slice. -/
theorem slice_getD (atoms : List Atom) (s n k : Nat) (hk : k < n)
    (hlen : s + k < atoms.length) :
    ((atoms.drop s).take n).getD k dAtom = atoms.getD (s + k) dAtom := by
  rw [List.getD_eq_getElem?_getD, List.getD_eq_getElem?_getD]
  rw [List.getElem?_take, if_pos hk]
  rw [List.getElem?_drop]

/-- The first and last atoms of a packed chunk's atoms_in_chunk are the stream
atoms at its start and at its exclusive end minus one. -/
theorem aic_head_last (tok : String → Nat) (atoms : List Atom) (pc : PackedChunk)
    (hpok : PcOK tok atoms pc) :
    pc.aic.headD dAtom = atoms.getD pc.start dAtom ∧
    pc.aic.getLastD dAtom
      = atoms.getD (pc.start + pc.aic.length - 1) dAtom := by
  obtain ⟨_, _, hslice, hne, hbound, _, _⟩ := hpok
  have hl : pc.aic.length ≠ 0 := by
    simpa [List.length_eq_zero] using hne
  constructor
  · have h0 : pc.aic.headD dAtom = pc.aic.getD 0 dAtom := by
      cases hc : pc.aic with
      | nil => exact absurd hc hne
      | cons a as => rfl
    rw [h0]
    conv_lhs => rw [hslice]
    rw [slice_getD atoms pc.start pc.aic.length 0 (by omega) (by omega)]
    simp
  · obtain ⟨n, hn⟩ : ∃ n, pc.aic.length = n := ⟨_, rfl⟩
    have h1 : pc.aic.getLastD dAtom = pc.aic.getD (n - 1) dAtom := by
      rw [List.getLastD_eq_getLast?, List.getLast?_eq_getElem?,
        List.getD_eq_getElem?_getD, hn]
    rw [h1, hn]
    conv_lhs => rw [hslice, hn]
    rw [slice_getD atoms pc.start n (n - 1) (by omega) (by omega)]
    congr 1
    omega

theorem getD_memg {α : Type} (l : List α) (k : Nat) (d : α) (h : k < l.length) :
    l.getD k d ∈ l := by
  rw [List.getD_eq_getElem l d h]
  exact List.getElem_mem h

theorem chain_adj_getD (atoms : List Atom) (hch : List.Chain' AdjOK atoms)
    (j : Nat) (hj : j + 1 < atoms.length) :
    AdjOK (atoms.getD j dAtom) (atoms.getD (j + 1) dAtom) := by
  rw [List.chain'_iff_get] at hch
  have hjj := hch j (by omega)
  have e1 : atoms.get ⟨j, by omega⟩ = atoms.getD j dAtom := by
    rw [List.getD_eq_getElem _ dAtom (by omega)]
    rfl
  have e2 : atoms.get ⟨j + 1, by omega⟩ = atoms.getD (j + 1) dAtom := by
    rw [List.getD_eq_getElem _ dAtom (by omega)]
    rfl
  rw [← e1, ← e2]
  exact hjj

theorem packRel_getD (tok : String → Nat) (size ov : Nat) (includePath : Bool)
    (atoms : List Atom) (k : Nat)
    (hk : k + 1 < (packFull tok size ov includePath atoms).length) :
    PackRel tok ov atoms ((packFull tok size ov includePath atoms).getD k dPC)
      ((packFull tok size ov includePath atoms).getD (k + 1) dPC) := by
  have hchain : List.Chain' (PackRel tok ov atoms)
      (packFull tok size ov includePath atoms) :=
    (packLoop_spec tok size ov includePath atoms atoms.length 0 none false).2.1
  rw [List.chain'_iff_get] at hchain
  have hjj := hchain k (by omega)
  have e1 : (packFull tok size ov includePath atoms).get ⟨k, by omega⟩
      = (packFull tok size ov includePath atoms).getD k dPC := by
    rw [List.getD_eq_getElem _ dPC (by omega)]
    rfl
  have e2 : (packFull tok size ov includePath atoms).get ⟨k + 1, by omega⟩
      = (packFull tok size ov includePath atoms).getD (k + 1) dPC := by
    rw [List.getD_eq_getElem _ dPC (by omega)]
    rfl
  rw [← e1, ← e2]
  exact hjj

theorem recs_ne_of_pcok (tok : String → Nat) (atoms : List Atom)
    (pc : PackedChunk) (hpok : PcOK tok atoms pc) : pc.recs ≠ [] := by
  obtain ⟨_, haic, _, hne, _, _, _⟩ := hpok
  intro hcon
  rw [hcon] at haic
  simp at haic
  exact hne haic

/-- The last atom of a chunk's last recorded line is the stream atom at the
chunk's exclusive end minus one, and the first atom of its first recorded line
is the stream atom at its start. -/
theorem recs_boundary_atoms (tok : String → Nat) (atoms : List Atom)
    (pc : PackedChunk) (hpok : PcOK tok atoms pc)
    (hwf : ∀ r ∈ pc.recs, RunOK pc.prevOwner r) :
    ((pc.recs.getLastD dRec).1.getLastD dAtom)
      = atoms.getD (pc.start + pc.aic.length - 1) dAtom ∧
    ((pc.recs.headD dRec).1.headD dAtom) = atoms.getD pc.start dAtom := by
  have hrne := recs_ne_of_pcok tok atoms pc hpok
  obtain ⟨hhead, hlast⟩ := aic_head_last tok atoms pc hpok
  have haic := hpok.2.1
  have hruns_ne : ∀ r ∈ pc.recs.map (fun r => r.1), r ≠ [] := by
    intro r hr
    rw [List.mem_map] at hr
    obtain ⟨rec, hrec, hreq⟩ := hr
    subst hreq
    exact (hwf rec hrec).1
  constructor
  · rw [← hlast, haic]
    rw [flatten_getLastD _ dAtom hruns_ne (by simp [hrne])]
    rw [getLastD_map (fun r => r.1) pc.recs dRec [] hrne]
  · rw [← hhead, haic]
    rw [flatten_headD _ dAtom hruns_ne (by simp [hrne])]
    rw [headD_map (fun r => r.1) pc.recs dRec [] hrne]

/-- C6, amended: at a boundary where the next chunk starts exactly at the
previous chunk's exclusive end (always the case with overlap 0 and positively
priced contents) and the node owning the last placed atom is not finished,
the earlier chunk's final line carries the continuation-closing flag, the next
chunk's first line carries the continuation-opening flag, and both lines are
owned by that same node. -/
theorem c6_markers (tok : String → Nat) (size ov : Nat) (includePath : Bool)
    (t : STree) (atoms : List Atom) (hwf : wfTree t = true)
    (hs : atomStream t = .ok atoms) (k : Nat)
    (hk : k + 1 < (packFull tok size ov includePath atoms).length)
    (hnb : ((packFull tok size ov includePath atoms).getD (k + 1) dPC).start
        = ((packFull tok size ov includePath atoms).getD k dPC).start
          + ((packFull tok size ov includePath atoms).getD k dPC).aic.length)
    (hsplit : (atoms.getD
        (((packFull tok size ov includePath atoms).getD k dPC).start
          + ((packFull tok size ov includePath atoms).getD k dPC).aic.length - 1)
        dAtom).is_last_in_node = false) :
    ((((packFull tok size ov includePath atoms).getD k dPC).recs.getLastD dRec).2.2
      = true) ∧
    ((((packFull tok size ov includePath atoms).getD (k + 1) dPC).recs.headD dRec).2.1
      = true) ∧
    (((((packFull tok size ov includePath atoms).getD (k + 1) dPC).recs.headD
        dRec).1.headD dAtom).node_id
      = ((((packFull tok size ov includePath atoms).getD k dPC).recs.getLastD
        dRec).1.headD dAtom).node_id) := by
  obtain ⟨_, hch, hlast, _, _⟩ := stream_facts t atoms hwf hs
  have hwfrecs : ∀ pc ∈ packFull tok size ov includePath atoms,
      ∀ r ∈ pc.recs, RunOK pc.prevOwner r :=
    packLoop_wf tok size ov includePath atoms hch hlast atoms.length 0 none false
  have hpcok : ∀ pc ∈ packFull tok size ov includePath atoms, PcOK tok atoms pc :=
    (packLoop_spec tok size ov includePath atoms atoms.length 0 none false).1
  have hpok := hpcok _ (getD_memg _ k dPC (by omega))
  have hqok := hpcok _ (getD_memg _ (k + 1) dPC (by omega))
  have hpw := hwfrecs _ (getD_memg _ k dPC (by omega))
  have hqw := hwfrecs _ (getD_memg _ (k + 1) dPC (by omega))
  have hprne := recs_ne_of_pcok tok atoms _ hpok
  have hqrne := recs_ne_of_pcok tok atoms _ hqok
  obtain ⟨hpb, _⟩ := recs_boundary_atoms tok atoms _ hpok hpw
  obtain ⟨_, hqb⟩ := recs_boundary_atoms tok atoms _ hqok hqw
  have hrel := packRel_getD tok size ov includePath atoms k hk
  have hqlen : ((packFull tok size ov includePath atoms).getD (k + 1) dPC).aic.length
      ≠ 0 := fun hcon => hqok.2.2.2.1 (List.length_eq_zero.mp hcon)
  have hebound : ((packFull tok size ov includePath atoms).getD (k + 1) dPC).start + 1
      ≤ atoms.length := by
    have := hqok.2.2.2.2.1
    omega
  have hadj := chain_adj_getD atoms hch
    (((packFull tok size ov includePath atoms).getD k dPC).start
      + ((packFull tok size ov includePath atoms).getD k dPC).aic.length - 1)
    (by
      have hplen : ((packFull tok size ov includePath atoms).getD k dPC).aic.length
          ≠ 0 := fun hcon => hpok.2.2.2.1 (List.length_eq_zero.mp hcon)
      omega)
  have hidx : ((packFull tok size ov includePath atoms).getD k dPC).start
      + ((packFull tok size ov includePath atoms).getD k dPC).aic.length - 1 + 1
      = ((packFull tok size ov includePath atoms).getD (k + 1) dPC).start := by
    have hplen : ((packFull tok size ov includePath atoms).getD k dPC).aic.length
        ≠ 0 := fun hcon => hpok.2.2.2.1 (List.length_eq_zero.mp hcon)
    omega
  rw [hidx] at hadj
  obtain ⟨hfe, hide⟩ := hadj
  rw [hsplit] at hfe hide
  simp only [Bool.false_eq_true, if_false] at hide
  have hplastrec := hpw _ (getLastD_memg _ dRec hprne)
  have hqheadrec := hqw _ (headD_memg _ dRec hqrne)
  have hidx2 : ((packFull tok size ov includePath atoms).getD (k + 1) dPC).start - 1
      = ((packFull tok size ov includePath atoms).getD k dPC).start
        + ((packFull tok size ov includePath atoms).getD k dPC).aic.length - 1 := by
    have hplen : ((packFull tok size ov includePath atoms).getD k dPC).aic.length
        ≠ 0 := fun hcon => hpok.2.2.2.1 (List.length_eq_zero.mp hcon)
    omega
  refine ⟨?_, ?_, ?_⟩
  · rw [hplastrec.2.2.2]
    rw [hpb, hsplit]
    rfl
  · rw [hqheadrec.2.2.1]
    rw [hqb, hfe]
    rw [hrel.2.2]
    rw [hidx2]
    rw [← hide]
    simp
  · rw [hqb]
    have hgl := hplastrec.2.1 _ (getLastD_memg _ dAtom hplastrec.1)
    rw [hpb] at hgl
    rw [← hgl]
    exact hide

theorem countP_eq_one_first {α : Type} (p : α → Bool) (d : α) :
    ∀ (l : List α), l ≠ [] →
    (∀ k, k < l.length → p (l.getD k d) = decide (k = 0)) →
    l.countP p = 1 := by
  intro l
  cases l with
  | nil => intro h _; exact absurd rfl h
  | cons x rest =>
    intro _ hk
    have hx : p x = true := by
      have := hk 0 (by simp)
      simpa using this
    have hrest : ∀ a ∈ rest, ¬ p a = true := by
      intro a ha
      obtain ⟨i, hi, hieq⟩ := List.mem_iff_getElem.mp ha
      have := hk (i + 1) (by simp; omega)
      have hgd : (x :: rest).getD (i + 1) d = rest.getD i d := rfl
      rw [hgd] at this
      rw [List.getD_eq_getElem rest d hi, hieq] at this
      simp at this
      simp [this]
    rw [List.countP_cons, List.countP_eq_zero.mpr hrest]
    simp [hx]

theorem countP_eq_one_last {α : Type} (p : α → Bool) (d : α) :
    ∀ (l : List α), l ≠ [] →
    (∀ k, k < l.length → p (l.getD k d) = decide (k = l.length - 1)) →
    l.countP p = 1 := by
  intro l
  induction l with
  | nil => intro h _; exact absurd rfl h
  | cons x rest ih =>
    intro _ hk
    cases rest with
    | nil =>
      have := hk 0 (by simp)
      simp at this
      simp [List.countP_cons, this]
    | cons y rest2 =>
      have hx : p x = false := by
        have := hk 0 (by simp)
        simpa using this
      have hshift : ∀ k, k < (y :: rest2).length →
          p ((y :: rest2).getD k d) = decide (k = (y :: rest2).length - 1) := by
        intro k hkk
        have := hk (k + 1) (by simp at hkk ⊢; omega)
        have hgd : (x :: y :: rest2).getD (k + 1) d = (y :: rest2).getD k d := rfl
        rw [hgd] at this
        rw [this]
        simp only [decide_eq_decide, List.length_cons]
        simp only [List.length_cons] at hkk
        omega
      rw [List.countP_cons]
      rw [ih (by simp) hshift]
      simp [hx]

/-- C8: the serializer walks the tree in DFS pre-order, emitting one run per
node with ids 0,1,2,... monotonically increasing and never reused, all atoms
of one owner contiguous in the stream, and within each run exactly one atom
flagged first-in-node and exactly one flagged last-in-node. -/
theorem c8_stream (t : STree) (hwf : wfTree t = true) :
    ∃ runs, irRunsT t 0 [] 0 = .ok (runs, runs.length) ∧
      atomStream t = .ok runs.flatten ∧
      (∀ j, j < runs.length → RunShape (runs.getD j []) j) ∧
      (∀ j, j < runs.length →
        (runs.getD j []).countP (fun a => a.is_first_in_node) = 1 ∧
        (runs.getD j []).countP (fun a => a.is_last_in_node) = 1) ∧
      List.Chain' AdjOK runs.flatten := by
  obtain ⟨runs, c2, h1, h2, h3, h4⟩ := irT_ok t 0 [] 0 hwf
  have h1b : irRunsT t 0 [] 0 = .ok (runs, runs.length) := by
    rw [h1, h2]
    simp
  have hsh : ∀ j, j < runs.length → RunShape (runs.getD j []) j := by
    intro j hj
    have := h4 j hj
    simpa using this
  refine ⟨runs, h1b, by rw [atomStream, h1], hsh, ?_, ?_⟩
  · intro j hj
    obtain ⟨hne, huni, hflags⟩ := hsh j hj
    constructor
    · exact countP_eq_one_first _ dAtom _ hne (fun k hk => (hflags k hk).1)
    · exact countP_eq_one_last _ dAtom _ hne (fun k hk => (hflags k hk).2)
  · have hsh0 : ∀ j, j < runs.length → RunShape (runs.getD j []) (0 + j) := by
      intro j hj
      simpa using hsh j hj
    exact (flatten_chain runs 0 hsh0).1

/-- C9, amended: a tree whose first unrecognized payload has Python type name
ty makes chunking fail fast with "Unknown node type: ty" (naming the type, not
the node or its id), and a tree with every payload recognized never fails. -/
theorem c9_failfast (tok : String → Nat) (size ov : Nat) (includePath : Bool)
    (t : STree) :
    (∀ ty, firstUnknownT t = some ty →
      chunkSemanticIR tok t size ov includePath
        = .error ("Unknown node type: " ++ ty)) ∧
    (firstUnknownT t = none →
      ∃ chunks, chunkSemanticIR tok t size ov includePath = .ok chunks) := by
  constructor
  · intro ty hty
    have herr := irT_err t 0 [] 0 ty hty
    rw [chunkSemanticIR, atomStream, herr]
  · intro hnone
    have hwf := fuT_none t hnone
    obtain ⟨runs, c2, h1, _, _, _⟩ := irT_ok t 0 [] 0 hwf
    exact ⟨_, by rw [chunkSemanticIR, atomStream, h1]⟩

/-- C10: a well-formed tree always yields at least one atom, chunking returns
a nonempty chunk list, and every chunk records at least one atom line beyond
its optional breadcrumb piece. -/
theorem c10_content (tok : String → Nat) (size ov : Nat) (includePath : Bool)
    (t : STree) (hwf : wfTree t = true) :
    ∃ atoms, atomStream t = .ok atoms ∧ atoms ≠ [] ∧
      chunkSemanticIR tok t size ov includePath
        = .ok ((packFull tok size ov includePath atoms).map PackedChunk.chunk) ∧
      (packFull tok size ov includePath atoms).map PackedChunk.chunk ≠ [] ∧
      ∀ pc ∈ packFull tok size ov includePath atoms,
        pc.recs ≠ [] ∧ pc.aic ≠ [] ∧
        pc.chunk.text_pieces = pc.ctxPieces ++ pc.recs.map lineRender := by
  obtain ⟨runs, c2, h1, h2, h3, h4⟩ := irT_ok t 0 [] 0 hwf
  have hsa : atomStream t = .ok runs.flatten := by rw [atomStream, h1]
  have hne : runs.flatten ≠ [] := by
    cases hr : runs with
    | nil =>
      rw [hr] at h3
      simp at h3
    | cons r rest =>
      have hr0 := h4 0 (by rw [hr]; simp)
      have hget : runs.getD 0 [] = r := by rw [hr]; rfl
      rw [hget] at hr0
      rw [List.flatten_cons]
      intro hcon
      exact hr0.1 (List.append_eq_nil.mp hcon).1
  have hpcok : ∀ pc ∈ packFull tok size ov includePath runs.flatten,
      PcOK tok runs.flatten pc :=
    (packLoop_spec tok size ov includePath runs.flatten
      runs.flatten.length 0 none false).1
  refine ⟨runs.flatten, hsa, hne, ?_, ?_, ?_⟩
  · rw [chunkSemanticIR, hsa]
    have hie : runs.flatten.isEmpty = false := by
      cases hc : runs.flatten with
      | nil => exact absurd hc hne
      | cons a as => rfl
    simp [hie]
  · have hlen : 0 < runs.flatten.length := by
      cases hc : runs.flatten with
      | nil => exact absurd hc hne
      | cons a as => simp
    cases hNl : runs.flatten.length with
    | zero => omega
    | succ f =>
      have : packFull tok size ov includePath runs.flatten
          = packLoop tok size ov includePath runs.flatten (f + 1) 0 none false := by
        rw [packFull, hNl]
      rw [this, packLoop_cons tok size ov includePath runs.flatten f 0 none false
        (by omega)]
      simp
  · intro pc hpc
    have hpok := hpcok pc hpc
    exact ⟨recs_ne_of_pcok tok runs.flatten pc hpok, hpok.2.2.2.1, hpok.1⟩

/-- Claim C1 counterexample: on the well-formed tree exTree7 with overlap 0,
the x-counting tokenizer prices two trailing attribute atoms at zero, the
overlap scan walks back over them, both reappear in the next chunk, and the
re-joined rendering repeats their content, differing from the unsplit
rendering. -/
theorem c1_roundtrip_cex :
    wfTree exTree7 = true ∧
    renderAll (mergeByOwner (((packFull tokX 5 0 true (streamOf exTree7)).map
        (fun pc => pc.recs.map (fun r => r.1))).flatten))
      ≠ renderAll (runsOfD exTree7) := by decide

/-- Claim C2 counterexample: with overlap 0 on the well-formed tree exTree7,
two zero-cost atoms are carried into the second chunk, so the chunks do not
partition the atom stream. -/
theorem c2_coverage_cex :
    wfTree exTree7 = true ∧
    ((packFull tokX 5 0 true (streamOf exTree7)).map (fun pc => pc.aic)).flatten
      ≠ streamOf exTree7 := by decide

/-- Claim C4 counterexample: under the constant-one tokenizer the chunk built
from exTree1 stores three pieces, reports three tokens, yet its rendered
markdown counts as one token. -/
theorem c4_tokens_cex :
    ((packFull tokOne 500 50 true (streamOf exTree1)).headD dPC).chunk.get_tokens
      ≠ tokOne (((packFull tokOne 500 50 true
          (streamOf exTree1)).headD dPC).chunk.to_markdown) := by decide

/-- Claim C5 counterexample: the second chunk of packEx7b opens its first
scope line as a continuation although the last atom placed in the previous
chunk is owned by node 1 while the scope belongs to node 0: the flag follows
the overlap-adjusted prev owner, not the last atom placed. -/
theorem c5_contopener_cex :
    ((packEx7b.getD 1 dPC).recs.headD dRec).2.1 = true ∧
    (((packEx7b.getD 0 dPC).aic.getLastD dAtom).node_id = 1) ∧
    ((((packEx7b.getD 1 dPC).recs.headD dRec).1.headD dAtom).node_id = 0) ∧
    ((((packEx7b.getD 1 dPC).recs.headD dRec).1.headD
        dAtom).is_first_in_node = false) ∧
    ((packEx7b.getD 1 dPC).recs.headD dRec).2.1
      ≠ ((some (((packEx7b.getD 0 dPC).aic.getLastD dAtom).node_id)
          == some ((((packEx7b.getD 1 dPC).recs.headD dRec).1.headD
              dAtom).node_id))
        && !(((packEx7b.getD 1 dPC).recs.headD dRec).1.headD
            dAtom).is_first_in_node) := by decide

/-- Claim C6 counterexample: node 0's line in the first chunk of packEx7b is
closed with the complete terminator, yet after the overlap rewind the second
chunk reopens node 0 with the continuation opener: a complete closer on one
side of the boundary is paired with a continuation opener on the other. -/
theorem c6_markers_cex :
    ((((packEx7b.getD 0 dPC).recs.getD 0 dRec).1.headD dAtom).node_id = 0) ∧
    ((packEx7b.getD 0 dPC).recs.getD 0 dRec).2.2 = false ∧
    ((((packEx7b.getD 1 dPC).recs.headD dRec).1.headD dAtom).node_id = 0) ∧
    ((packEx7b.getD 1 dPC).recs.headD dRec).2.1 = true := by decide

/-- Claim C9 counterexample: two trees whose unrecognized nodes sit at
different DFS positions (the third node of exTreeBad, the root of exTreeBad2)
produce the identical error message: the message names only the Python type,
never the offending node or its id. -/
theorem c9_failfast_cex :
    chunkSemanticIR tokLen exTreeBad 500 50 true
      = .error "Unknown node type: Widget" ∧
    chunkSemanticIR tokLen exTreeBad2 500 50 true
      = .error "Unknown node type: Widget" ∧
    firstUnknownT exTreeBad = some "Widget" ∧
    firstUnknownT exTreeBad2 = some "Widget" :=
  ⟨rfl, rfl, by decide, by decide⟩

theorem c1_roundtrip_witness :
    mergeByOwner (((packFull tokLen 12 0 true (streamOf exTree8)).map
        (fun pc => pc.recs.map (fun r => r.1))).flatten) = runsOfD exTree8 ∧
    renderAll (mergeByOwner (((packFull tokLen 12 0 true (streamOf exTree8)).map
        (fun pc => pc.recs.map (fun r => r.1))).flatten))
      = renderAll (runsOfD exTree8) :=
  c1_roundtrip tokLen 12 true exTree8 (streamOf exTree8) (by decide) rfl (by decide)

theorem c3_termination_witness :
    ∃ atoms, atomStream exTree4 = .ok atoms ∧
      chunkSemanticIR tokLen exTree4 5 0 true
        = .ok (if atoms.isEmpty then []
               else (packFull tokLen 5 0 true atoms).map PackedChunk.chunk) ∧
      (if atoms.isEmpty then ([] : List Chunk)
       else (packFull tokLen 5 0 true atoms).map PackedChunk.chunk).length
        ≤ atoms.length ∧
      (∀ (prev : Option Nat) (nf : Bool) (i : Nat), i < atoms.length →
        i < (chunkBody tokLen 5 true nf atoms prev i).i ∧
        (chunkBody tokLen 5 true nf atoms prev i).i ≤ atoms.length) :=
  c3_termination tokLen 5 0 true exTree4 (by decide)

theorem c5_contopener_witness :
    (∀ pc ∈ packFull tokX 6 0 true (streamOf exTree7b), ∀ r ∈ pc.recs,
      r.2.1 = ((pc.prevOwner == some ((r.1.headD dAtom).node_id))
        && !(r.1.headD dAtom).is_first_in_node)) ∧
    List.Chain' (fun _ q => q.prevOwner
        = some (((streamOf exTree7b).getD (q.start - 1) dAtom).node_id))
      (packFull tokX 6 0 true (streamOf exTree7b)) ∧
    (packFull tokX 6 0 true (streamOf exTree7b) ≠ [] →
      ((packFull tokX 6 0 true (streamOf exTree7b)).headD dPC).prevOwner
        = none) :=
  c5_contopener tokX 6 0 true exTree7b (streamOf exTree7b) (by decide) rfl

theorem c6_markers_witness :
    ((((packFull tokLen 12 0 true (streamOf exTree8)).getD 0 dPC).recs.getLastD
        dRec).2.2 = true) ∧
    ((((packFull tokLen 12 0 true (streamOf exTree8)).getD (0 + 1)
        dPC).recs.headD dRec).2.1 = true) ∧
    (((((packFull tokLen 12 0 true (streamOf exTree8)).getD (0 + 1)
        dPC).recs.headD dRec).1.headD dAtom).node_id
      = ((((packFull tokLen 12 0 true (streamOf exTree8)).getD 0
        dPC).recs.getLastD dRec).1.headD dAtom).node_id) :=
  c6_markers tokLen 12 0 true exTree8 (streamOf exTree8) (by decide) rfl 0
    (by decide) (by decide) (by decide)

theorem c8_stream_witness :
    ∃ runs, irRunsT exTree1 0 [] 0 = .ok (runs, runs.length) ∧
      atomStream exTree1 = .ok runs.flatten ∧
      (∀ j, j < runs.length → RunShape (runs.getD j []) j) ∧
      (∀ j, j < runs.length →
        (runs.getD j []).countP (fun a => a.is_first_in_node) = 1 ∧
        (runs.getD j []).countP (fun a => a.is_last_in_node) = 1) ∧
      List.Chain' AdjOK runs.flatten :=
  c8_stream exTree1 (by decide)

theorem c10_content_witness :
    ∃ atoms, atomStream exTree4 = .ok atoms ∧ atoms ≠ [] ∧
      chunkSemanticIR tokLen exTree4 5 0 true
        = .ok ((packFull tokLen 5 0 true atoms).map PackedChunk.chunk) ∧
      (packFull tokLen 5 0 true atoms).map PackedChunk.chunk ≠ [] ∧
      ∀ pc ∈ packFull tokLen 5 0 true atoms,
        pc.recs ≠ [] ∧ pc.aic ≠ [] ∧
        pc.chunk.text_pieces = pc.ctxPieces ++ pc.recs.map lineRender :=
  c10_content tokLen 5 0 true exTree4 (by decide)

end DomContext
